import Mathlib

/-!
Verification of the speculative-decoding core of `whisper_medusa/models/medusa_utils.py`:
tree-topology construction (`generate_medusa_buffers`), candidate generation
(`generate_candidates`), posterior acceptance (`evaluate_posterior`) and sequence-state
update (`update_inference_inputs`).  Tensors are embedded as (nested) lists; a tensor of
shape (P, D) is a list of P rows of width D, and elementwise tensor operations are
embedded as indexed constructions over `List.range`.
-/

namespace WhisperMedusa

/-- Index of the first occurrence of the maximal element of a list
(the semantics of `torch.argmax` on a 1-d tensor); 0 on the empty list. -/
def argmaxIdx {α : Type} [LinearOrder α] : List α → ℕ
  | [] => 0
  | x :: xs =>
    let j := argmaxIdx xs
    if x < xs.getD j x then j + 1 else 0

/-- Running products of a list with seed accumulator `a`
(the tail of `torch.cumprod` scaled by `a`). -/
def cumprodAux : ℕ → List ℕ → List ℕ
  | _, [] => []
  | a, x :: xs => (a * x) :: cumprodAux (a * x) xs

/-- Sum of the running products (`torch.cumprod(x, dim).sum(dim)`). -/
def cumprodSum (l : List ℕ) : ℕ := (cumprodAux 1 l).sum

/-- Maximum of a list of naturals (`tensor.max()` for non-empty input; 0 on []). -/
def listMax (l : List ℕ) : ℕ := l.foldl max 0

/-- Each element of `l` repeated `k` times in place:
`tensor.repeat(k, 1).transpose(0, 1).flatten()`. -/
def repeatInterleave (l : List ℕ) (k : ℕ) : List ℕ :=
  l.flatMap (fun x => List.replicate k x)

section ArgmaxLemmas

variable {α : Type} [LinearOrder α]

theorem argmaxIdx_nil_or_cons (x : α) (xs : List α) :
    argmaxIdx (x :: xs) =
      if x < xs.getD (argmaxIdx xs) x then argmaxIdx xs + 1 else 0 := rfl

theorem argmaxIdx_lt_length (l : List α) (h : l ≠ []) : argmaxIdx l < l.length := by
  induction l with
  | nil => simp at h
  | cons x xs ih =>
    rw [argmaxIdx_nil_or_cons]
    by_cases hxs : xs = []
    · subst hxs; simp
    · have := ih hxs
      split
      · simpa [Nat.succ_lt_succ_iff] using this
      · simp

theorem argmaxIdx_le (l : List α) (d : α) :
    ∀ i, i < l.length → l.getD i d ≤ l.getD (argmaxIdx l) d := by
  induction l with
  | nil => intro i hi; simp at hi
  | cons x xs ih =>
    intro i hi
    by_cases hxs : xs = []
    · subst hxs
      have : i = 0 := by simpa using Nat.lt_one_iff.mp (by simpa using hi)
      subst this; simp [argmaxIdx]
    · have hmax := argmaxIdx_lt_length xs hxs
      have hswap : xs.getD (argmaxIdx xs) x = xs.getD (argmaxIdx xs) d := by
        rw [List.getD_eq_getElem xs x hmax, List.getD_eq_getElem xs d hmax]
      rw [argmaxIdx_nil_or_cons]
      by_cases hcond : x < xs.getD (argmaxIdx xs) x
      · rw [if_pos hcond]
        match i with
        | 0 =>
          simpa using le_of_lt (lt_of_lt_of_eq hcond hswap)
        | Nat.succ i' =>
          have hi' : i' < xs.length := by simpa [Nat.succ_lt_succ_iff] using hi
          simpa using ih i' hi'
      · rw [if_neg hcond]
        push_neg at hcond
        match i with
        | 0 => simp
        | Nat.succ i' =>
          have hi' : i' < xs.length := by simpa [Nat.succ_lt_succ_iff] using hi
          have h1 := ih i' hi'
          have h2 : xs.getD (argmaxIdx xs) d ≤ x := le_of_eq_of_le hswap.symm hcond
          simpa using le_trans h1 h2

theorem argmaxIdx_first (l : List α) (d : α) :
    ∀ i, i < argmaxIdx l → l.getD i d < l.getD (argmaxIdx l) d := by
  induction l with
  | nil => intro i hi; simp [argmaxIdx] at hi
  | cons x xs ih =>
    intro i hi
    by_cases hxs : xs = []
    · subst hxs; simp [argmaxIdx] at hi
    · have hmax := argmaxIdx_lt_length xs hxs
      have hswap : xs.getD (argmaxIdx xs) x = xs.getD (argmaxIdx xs) d := by
        rw [List.getD_eq_getElem xs x hmax, List.getD_eq_getElem xs d hmax]
      rw [argmaxIdx_nil_or_cons] at hi ⊢
      by_cases hcond : x < xs.getD (argmaxIdx xs) x
      · rw [if_pos hcond] at hi ⊢
        match i with
        | 0 =>
          simpa using lt_of_lt_of_eq hcond hswap
        | Nat.succ i' =>
          have hi' : i' < argmaxIdx xs := by omega
          simpa using ih i' hi'
      · rw [if_neg hcond] at hi
        omega

end ArgmaxLemmas

theorem cumprodAux_zero (l : List ℕ) : (cumprodAux 0 l).sum = 0 := by
  induction l with
  | nil => simp [cumprodAux]
  | cons x xs ih => simpa [cumprodAux] using ih

/-- The sum of the running products of a 0/1 indicator list is the length of its
longest all-ones leading segment. -/
theorem cumprodSum_map_ite {ι : Type} (l : List ι) (p : ι → Prop) [DecidablePred p] :
    cumprodSum (l.map (fun x => if p x then 1 else 0)) =
      (l.takeWhile (fun x => decide (p x))).length := by
  induction l with
  | nil => simp [cumprodSum, cumprodAux]
  | cons x xs ih =>
    by_cases hx : p x
    · have htw : List.takeWhile (fun x => decide (p x)) (x :: xs) =
          x :: List.takeWhile (fun x => decide (p x)) xs :=
        List.takeWhile_cons_of_pos (by simpa using hx)
      have := ih
      simp only [cumprodSum] at this ⊢
      simp only [List.map_cons, if_pos hx, cumprodAux, one_mul, List.sum_cons, htw,
        List.length_cons]
      omega
    · have htw : List.takeWhile (fun x => decide (p x)) (x :: xs) = [] :=
        List.takeWhile_cons_of_neg (by simpa using hx)
      simp only [cumprodSum, List.map_cons, if_neg hx, cumprodAux, mul_zero, List.sum_cons,
        htw, List.length_nil, cumprodAux_zero, Nat.zero_add, one_mul]

/-- Running-product sums are monotone in pointwise-ordered entries. -/
theorem cumprodAux_sum_mono {ι : Type} (l : List ι) (f g : ι → ℕ)
    (hfg : ∀ x ∈ l, f x ≤ g x) :
    ∀ a b : ℕ, a ≤ b → (cumprodAux a (l.map f)).sum ≤ (cumprodAux b (l.map g)).sum := by
  induction l with
  | nil => intro a b _; simp [cumprodAux]
  | cons x xs ih =>
    intro a b hab
    have hx : f x ≤ g x := hfg x (by simp)
    have hmul : a * f x ≤ b * g x := Nat.mul_le_mul hab hx
    have hxs : ∀ y ∈ xs, f y ≤ g y := fun y hy => hfg y (by simp [hy])
    simpa [cumprodAux] using Nat.add_le_add hmul (ih hxs _ _ hmul)

theorem cumprodSum_mono {ι : Type} (l : List ι) (f g : ι → ℕ)
    (hfg : ∀ x ∈ l, f x ≤ g x) :
    cumprodSum (l.map f) ≤ cumprodSum (l.map g) :=
  cumprodAux_sum_mono l f g hfg 1 1 le_rfl

section ListMaxLemmas

theorem foldl_max_le_foldl_max {a b : ℕ} (l : List ℕ) (h : a ≤ b) :
    l.foldl max a ≤ l.foldl max b := by
  induction l generalizing a b with
  | nil => simpa
  | cons x xs ih => exact ih (max_le_max h le_rfl)

theorem le_foldl_max (l : List ℕ) (a : ℕ) : a ≤ l.foldl max a := by
  induction l generalizing a with
  | nil => simp
  | cons x xs ih => exact le_trans (le_max_left a x) (ih (max a x))

theorem le_listMax_of_mem {l : List ℕ} {x : ℕ} (hx : x ∈ l) : x ≤ listMax l := by
  have h : ∀ (a : ℕ) (l : List ℕ), x ∈ l → x ≤ l.foldl max a := by
    intro a l
    induction l generalizing a with
    | nil => simp
    | cons y ys ih =>
      intro hmem
      rcases List.mem_cons.mp hmem with hh | hh
      · subst hh
        exact le_trans (le_max_right a x) (le_foldl_max ys (max a x))
      · exact ih _ hh
  exact h 0 l hx

theorem foldl_max_mem (l : List ℕ) (a : ℕ) : l.foldl max a = a ∨ l.foldl max a ∈ l := by
  induction l generalizing a with
  | nil => simp
  | cons x xs ih =>
    simp only [List.foldl_cons]
    rcases ih (max a x) with h | h
    · rcases max_choice a x with hc | hc
      · left; rw [h, hc]
      · right; rw [h, hc]; simp
    · right; simp [h]

theorem listMax_mem {l : List ℕ} (h0 : listMax l ≠ 0) : listMax l ∈ l := by
  rcases foldl_max_mem l 0 with hc | hc
  · exact absurd hc h0
  · exact hc

theorem listMax_le {l : List ℕ} {m : ℕ} (h : ∀ x ∈ l, x ≤ m) : listMax l ≤ m := by
  rcases foldl_max_mem l 0 with hc | hc
  · simp [listMax, hc]
  · exact h _ hc

end ListMaxLemmas

/-!
## PosteriorEvaluator: the `temperature == 0` (greedy) branch of `evaluate_posterior`

Source (`medusa_utils.py`, lines 566-580):
  posterior_mask = (candidates[:, 1:] == torch.argmax(logits[:, :-1], dim=-1)).int()
  candidates_accept_length = (torch.cumprod(posterior_mask, dim=1)).sum(dim=1)
  accept_length = candidates_accept_length.max()
  if accept_length == 0: best_candidate = 0 else:
  best_candidate = torch.argmax(candidates_accept_length)
`candidates` has shape (P, D+1) and `logits` shape (P, D+1, vocab); the elementwise
tensor pipeline is embedded index-wise over `List.range`.
-/

/-- The 0/1 acceptance mask row of path `p` in the greedy branch:
entry `i` is 1 iff `candidates[p][i+1] == argmax(logits[p][i])`. -/
def greedyMaskRow {α : Type} [LinearOrder α] (logits : List (List (List α)))
    (candidates : List (List ℕ)) (p : ℕ) : List ℕ :=
  (List.range ((candidates.getD 0 []).length - 1)).map (fun i =>
    if (candidates.getD p []).getD (i + 1) 0 = argmaxIdx ((logits.getD p []).getD i [])
    then 1 else 0)

/-- Per-path accepted lengths in the greedy branch
(`(torch.cumprod(posterior_mask, dim=1)).sum(dim=1)`). -/
def greedyAcceptLens {α : Type} [LinearOrder α] (logits : List (List (List α)))
    (candidates : List (List ℕ)) : List ℕ :=
  (List.range candidates.length).map (fun p => cumprodSum (greedyMaskRow logits candidates p))

/-- The `temperature == 0` branch of `evaluate_posterior`: returns
`(best_candidate, accept_length)`. -/
def evaluate_posterior_greedy {α : Type} [LinearOrder α] (logits : List (List (List α)))
    (candidates : List (List ℕ)) : ℕ × ℕ :=
  if listMax (greedyAcceptLens logits candidates) = 0 then (0, 0)
  else (argmaxIdx (greedyAcceptLens logits candidates),
        listMax (greedyAcceptLens logits candidates))

/-- The length of the longest all-accepted leading run of path `p` under greedy
verification, phrased as in the specification: the longest prefix of positions `i`
with `candidates[p][i+1] = argmax(logits[p][i])`. -/
def greedySpecLen {α : Type} [LinearOrder α] (logits : List (List (List α)))
    (candidates : List (List ℕ)) (p : ℕ) : ℕ :=
  ((List.range ((candidates.getD 0 []).length - 1)).takeWhile (fun i =>
    decide ((candidates.getD p []).getD (i + 1) 0 =
      argmaxIdx ((logits.getD p []).getD i [])))).length

theorem greedy_len_eq {α : Type} [LinearOrder α] (logits : List (List (List α)))
    (candidates : List (List ℕ)) (p : ℕ) :
    cumprodSum (greedyMaskRow logits candidates p) = greedySpecLen logits candidates p := by
  unfold greedyMaskRow greedySpecLen
  exact cumprodSum_map_ite _ _

theorem greedy_lens_eq {α : Type} [LinearOrder α] (logits : List (List (List α)))
    (candidates : List (List ℕ)) :
    greedyAcceptLens logits candidates =
      (List.range candidates.length).map (greedySpecLen logits candidates) := by
  unfold greedyAcceptLens
  exact List.map_congr_left (fun p _ => greedy_len_eq logits candidates p)

theorem getD_map_range {β : Type} (f : ℕ → β) {n p : ℕ} (hp : p < n) (d : β) :
    ((List.range n).map f).getD p d = f p := by
  rw [List.getD_eq_getElem _ _ (by simpa using hp)]
  simp

theorem getD_mem {l : List ℕ} {i : ℕ} (hi : i < l.length) : l.getD i 0 ∈ l := by
  rw [List.getD_eq_getElem _ _ hi]
  exact List.getElem_mem hi

theorem getD_argmaxIdx_eq_listMax {l : List ℕ} (h : l ≠ []) :
    l.getD (argmaxIdx l) 0 = listMax l := by
  have hlt := argmaxIdx_lt_length l h
  refine le_antisymm (le_listMax_of_mem (getD_mem hlt)) ?_
  by_cases h0 : listMax l = 0
  · simp [h0]
  · obtain ⟨j, hj, hjeq⟩ := List.mem_iff_getElem.mp (listMax_mem h0)
    have : l.getD j 0 = listMax l := by rw [List.getD_eq_getElem _ _ hj]; exact hjeq
    rw [← this]
    exact argmaxIdx_le l 0 j hj

theorem evaluate_posterior_greedy_snd {α : Type} [LinearOrder α]
    (logits : List (List (List α))) (candidates : List (List ℕ)) :
    (evaluate_posterior_greedy logits candidates).2 =
      listMax (greedyAcceptLens logits candidates) := by
  unfold evaluate_posterior_greedy
  by_cases h : listMax (greedyAcceptLens logits candidates) = 0
  · rw [if_pos h]; exact h.symm
  · rw [if_neg h]

/-- C1: with temperature 0, `evaluate_posterior` returns as `accept_length` the maximum
over paths `p` of the length of the longest prefix of positions `i` at which
`candidates[p][i+1]` equals the argmax of `logits[p][i]`; a single mismatch halts that
path's accepted run at that position (the `takeWhile` in `greedySpecLen`: no skipping). -/
theorem c1_greedy_accept_length (logits : List (List (List ℚ)))
    (candidates : List (List ℕ)) :
    (evaluate_posterior_greedy logits candidates).2 =
      listMax ((List.range candidates.length).map (greedySpecLen logits candidates)) := by
  rw [evaluate_posterior_greedy_snd, greedy_lens_eq]

/-- C2: with temperature 0, `evaluate_posterior` returns as `best_candidate` the lowest
path id among the paths attaining the maximal accept length; in particular, when the
maximal accept length is 0 it returns `best_candidate = 0` and `accept_length = 0`. -/
theorem c2_greedy_best_candidate (logits : List (List (List ℚ)))
    (candidates : List (List ℕ)) (hP : 0 < candidates.length) :
    greedySpecLen logits candidates (evaluate_posterior_greedy logits candidates).1 =
        (evaluate_posterior_greedy logits candidates).2 ∧
    (∀ q, q < candidates.length →
        greedySpecLen logits candidates q = (evaluate_posterior_greedy logits candidates).2 →
        (evaluate_posterior_greedy logits candidates).1 ≤ q) ∧
    (listMax ((List.range candidates.length).map (greedySpecLen logits candidates)) = 0 →
        evaluate_posterior_greedy logits candidates = (0, 0)) := by
  have hlens := greedy_lens_eq logits candidates
  have hlenL : (greedyAcceptLens logits candidates).length = candidates.length := by
    simp [greedyAcceptLens]
  have hgetD : ∀ p, p < candidates.length →
      (greedyAcceptLens logits candidates).getD p 0 = greedySpecLen logits candidates p := by
    intro p hp
    rw [hlens]
    exact getD_map_range _ hp 0
  by_cases h0 : listMax (greedyAcceptLens logits candidates) = 0
  · have hr : evaluate_posterior_greedy logits candidates = (0, 0) := by
      unfold evaluate_posterior_greedy; rw [if_pos h0]
    refine ⟨?_, ?_, ?_⟩
    · rw [hr]
      show greedySpecLen logits candidates 0 = 0
      have hmem : greedySpecLen logits candidates 0 ∈
          (List.range candidates.length).map (greedySpecLen logits candidates) :=
        List.mem_map_of_mem _ (List.mem_range.mpr hP)
      have := le_listMax_of_mem hmem
      rw [← hlens] at this
      omega
    · intro q _ _; rw [hr]; exact Nat.zero_le q
    · intro _; exact hr
  · have hr : evaluate_posterior_greedy logits candidates =
        (argmaxIdx (greedyAcceptLens logits candidates),
         listMax (greedyAcceptLens logits candidates)) := by
      unfold evaluate_posterior_greedy; rw [if_neg h0]
    have hLne : greedyAcceptLens logits candidates ≠ [] := by
      intro hnil; rw [hnil] at h0; simp [listMax] at h0
    have hargmax_lt := argmaxIdx_lt_length _ hLne
    have hattain := getD_argmaxIdx_eq_listMax hLne
    refine ⟨?_, ?_, ?_⟩
    · rw [hr]
      have := hgetD (argmaxIdx (greedyAcceptLens logits candidates)) (by omega)
      rw [← this, hattain]
    · intro q hq hspec
      rw [hr] at hspec ⊢
      have hq' : (greedyAcceptLens logits candidates).getD q 0 =
          listMax (greedyAcceptLens logits candidates) := by
        rw [hgetD q hq]; exact hspec
      by_contra hcon
      push_neg at hcon
      have := argmaxIdx_first (greedyAcceptLens logits candidates) 0 q hcon
      rw [hattain, hq'] at this
      exact lt_irrefl _ this
    · intro hmax0
      rw [← hlens] at hmax0
      exact absurd hmax0 h0

/-- Witness for C2 at a concrete input: two paths both accept one position
(tie at accept length 1), and the returned best path is the lower id, 0. -/
theorem c2_greedy_best_candidate_witness :
    0 < ([[9, 1], [9, 0]] : List (List ℕ)).length ∧
    (greedySpecLen ([[[0, 1], [1, 0]], [[1, 0], [0, 1]]] : List (List (List ℚ)))
        [[9, 1], [9, 0]]
        (evaluate_posterior_greedy
          ([[[0, 1], [1, 0]], [[1, 0], [0, 1]]] : List (List (List ℚ)))
          [[9, 1], [9, 0]]).1 =
      (evaluate_posterior_greedy
          ([[[0, 1], [1, 0]], [[1, 0], [0, 1]]] : List (List (List ℚ)))
          [[9, 1], [9, 0]]).2 ∧
    (∀ q, q < ([[9, 1], [9, 0]] : List (List ℕ)).length →
        greedySpecLen ([[[0, 1], [1, 0]], [[1, 0], [0, 1]]] : List (List (List ℚ)))
            [[9, 1], [9, 0]] q =
          (evaluate_posterior_greedy
              ([[[0, 1], [1, 0]], [[1, 0], [0, 1]]] : List (List (List ℚ)))
              [[9, 1], [9, 0]]).2 →
        (evaluate_posterior_greedy
            ([[[0, 1], [1, 0]], [[1, 0], [0, 1]]] : List (List (List ℚ)))
            [[9, 1], [9, 0]]).1 ≤ q) ∧
    (listMax ((List.range ([[9, 1], [9, 0]] : List (List ℕ)).length).map
        (greedySpecLen ([[[0, 1], [1, 0]], [[1, 0], [0, 1]]] : List (List (List ℚ)))
          [[9, 1], [9, 0]])) = 0 →
        evaluate_posterior_greedy
            ([[[0, 1], [1, 0]], [[1, 0], [0, 1]]] : List (List (List ℚ)))
            [[9, 1], [9, 0]] = (0, 0))) :=
  ⟨by decide, c2_greedy_best_candidate _ _ (by decide)⟩

/-!
## TreeTopologyBuilder: `generate_medusa_buffers`

Source (`medusa_utils.py`, lines 305-421).  With `b = medusa_choices`:
`cumulative_product[i] = cp b i`, `cumulative_product[:i].sum() = blockStart b i`,
`medusa_len = medusaLen b`.  The attention mask, a `medusa_len x medusa_len` matrix, is
embedded as its entry function `medusaAttnMask b : row -> col -> value` together with the
matrix view `attnMatrix b`.
-/

/-- `cumulative_product[i]` = `torch.cumprod(medusa_choices)[i]`. -/
def cp (b : List ℕ) (i : ℕ) : ℕ := (b.take (i + 1)).prod

/-- `prev_cumprod` at iteration `i` of the tree-indices loop (1 for `i = 0`,
`cumulative_product[i-1]` afterwards). -/
def cpPrev (b : List ℕ) (i : ℕ) : ℕ := (b.take i).prod

/-- `cumulative_product[:i].sum()`: index of the first node of the depth-`i` block. -/
def blockStart (b : List ℕ) (i : ℕ) : ℕ := ∑ j in Finset.range i, cp b j

/-- `medusa_len = cumulative_product.sum()`: the total number of tree nodes. -/
def medusaLen (b : List ℕ) : ℕ := blockStart b b.length

/-- `medusa_len_prod = torch.prod(medusa_choices)`: the number of root-to-leaf paths. -/
def numPaths (b : List ℕ) : ℕ := b.prod

/-- `tree_indices`: for each depth `i`, the pool-index slice
`medusa_indices[prev_cumsum:cumsum]` (= `range' ((b.take i).sum) b[i]`) tiled
`prev_cumprod` times (`.repeat(prev_cumprod, 1).flatten()`). -/
def treeIndices (b : List ℕ) : List ℕ :=
  (List.range b.length).flatMap (fun i =>
    (List.replicate (cpPrev b i) (List.range' ((b.take i).sum) (b.getD i 0))).flatten)

/-- `medusa_position_ids`: `[i] * cumulative_product[i]` for each depth `i`. -/
def medusaPositionIds (b : List ℕ) : List ℕ :=
  (List.range b.length).flatMap (fun i => List.replicate (cp b i) i)

/-- `parent_idx` of loop iteration `i >= 1` of the attention-mask update:
`torch.arange(prev_cumprod_sum, cumprod_sum).repeat(medusa_choices[i], 1)
.transpose(0, 1).flatten()`. -/
def parentList (b : List ℕ) (i : ℕ) : List ℕ :=
  repeatInterleave (List.range' (blockStart b (i - 1)) (cp b (i - 1))) (b.getD i 0)

/-- One iteration of the attention-mask update loop:
`medusa_attn_mask[cumprod_sum : cumprod_sum + parent_idx.size(0)] +=
medusa_attn_mask[parent_idx]`; the `i = 0` iteration is skipped
(`prev_cumprod_sum == -1` in the source). -/
def maskStep (b : List ℕ) (M : ℕ → ℕ → ℕ) (i : ℕ) : ℕ → ℕ → ℕ :=
  if i = 0 then M
  else fun r c =>
    if blockStart b i ≤ r ∧ r < blockStart b i + (parentList b i).length
    then M r c + M ((parentList b i).getD (r - blockStart b i) 0) c
    else M r c

/-- The identity matrix `torch.eye(medusa_len)` as an entry function. -/
def idMask : ℕ → ℕ → ℕ := fun r c => if r = c then 1 else 0

/-- The attention-mask entry function after the whole update loop. -/
def medusaAttnMask (b : List ℕ) : ℕ → ℕ → ℕ :=
  (List.range b.length).foldl (maskStep b) idMask

/-- The `medusa_len x medusa_len` attention-mask matrix. -/
def attnMatrix (b : List ℕ) : List (List ℕ) :=
  (List.range (medusaLen b)).map (fun r =>
    (List.range (medusaLen b)).map (medusaAttnMask b r))

/-- Column `i` of `retrieve_indices`:
`torch.arange(prev_cumprod_sum, cumprod_sum)
.repeat(medusa_len_prod // (cumprod_sum - prev_cumprod_sum), 1).transpose(0, 1).flatten()`. -/
def retrieveCol (b : List ℕ) (i : ℕ) : List ℕ :=
  repeatInterleave (List.range' (blockStart b i) (cp b i)) (numPaths b / cp b i)

/-- Row `r` of `retrieve_indices` (the matrix is filled column by column). -/
def retrieveRow (b : List ℕ) (r : ℕ) : List ℕ :=
  (List.range b.length).map (fun i => (retrieveCol b i).getD r 0)

/-- `retrieve_indices` as a list of `numPaths` rows of width `len(medusa_choices)`. -/
def retrieveIndices (b : List ℕ) : List (List ℕ) :=
  (List.range (numPaths b)).map (retrieveRow b)

/-- Depth of node `n`: the largest `d` with `blockStart b d <= n`. -/
def depthOf (b : List ℕ) (n : ℕ) : ℕ :=
  ((List.range b.length).filter (fun i => blockStart b i ≤ n)).length - 1

/-- The designated parent of node `n` (for nodes of positive depth), as computed by
replicating the parent index range to match the child block size. -/
def parentOf (b : List ℕ) (n : ℕ) : ℕ :=
  blockStart b (depthOf b n - 1) +
    (n - blockStart b (depthOf b n)) / b.getD (depthOf b n) 1

/-- The root-to-`n` chain (listed from `n` upwards), with recursion fuel `d`. -/
def chains (b : List ℕ) : ℕ → ℕ → List ℕ
  | 0, n => [n]
  | d + 1, n => n :: chains b d (parentOf b n)

/-- The set of node `n` and all its ancestors. -/
def chainList (b : List ℕ) (n : ℕ) : List ℕ := chains b (depthOf b n) n

section TopologyLemmas

theorem cp_pos {b : List ℕ} (hpos : ∀ x ∈ b, 0 < x) (i : ℕ) : 0 < cp b i :=
  List.prod_pos (fun x hx => hpos x (List.take_subset _ _ hx))

theorem cpPrev_pos {b : List ℕ} (hpos : ∀ x ∈ b, 0 < x) (i : ℕ) : 0 < cpPrev b i :=
  List.prod_pos (fun x hx => hpos x (List.take_subset _ _ hx))

theorem cp_eq_cpPrev_mul {b : List ℕ} {i : ℕ} (hi : i < b.length) :
    cp b i = cpPrev b i * b.getD i 0 := by
  unfold cp cpPrev
  rw [List.prod_take_succ b i hi, List.getD_eq_getElem b 0 hi]

theorem cpPrev_succ (b : List ℕ) (i : ℕ) : cpPrev b (i + 1) = cp b i := rfl

theorem blockStart_zero (b : List ℕ) : blockStart b 0 = 0 := by simp [blockStart]

theorem blockStart_succ (b : List ℕ) (i : ℕ) :
    blockStart b (i + 1) = blockStart b i + cp b i := Finset.sum_range_succ _ _

theorem blockStart_mono (b : List ℕ) {i j : ℕ} (h : i ≤ j) :
    blockStart b i ≤ blockStart b j :=
  Finset.sum_le_sum_of_subset (Finset.range_subset.mpr h)

theorem blockStart_lt_succ {b : List ℕ} (hpos : ∀ x ∈ b, 0 < x) (i : ℕ) :
    blockStart b i < blockStart b (i + 1) := by
  rw [blockStart_succ]
  exact Nat.lt_add_of_pos_right (cp_pos hpos i)

theorem filter_range_le_eq (m d : ℕ) :
    (List.range m).filter (fun i => decide (i ≤ d)) = List.range (min m (d + 1)) := by
  induction m with
  | zero => simp
  | succ m ih =>
    rw [List.range_succ, List.filter_append, ih]
    by_cases hm : m ≤ d
    · have h1 : min (m + 1) (d + 1) = m + 1 := by omega
      have h2 : min m (d + 1) = m := by omega
      simp [hm, h1, h2, List.range_succ]
    · have h1 : min (m + 1) (d + 1) = min m (d + 1) := by omega
      simp [hm, h1]

theorem depthOf_eq {b : List ℕ} {d n : ℕ} (hd : d < b.length)
    (h1 : blockStart b d ≤ n) (h2 : n < blockStart b (d + 1)) : depthOf b n = d := by
  unfold depthOf
  have hcongr : (List.range b.length).filter (fun i => decide (blockStart b i ≤ n)) =
      (List.range b.length).filter (fun i => decide (i ≤ d)) := by
    apply List.filter_congr
    intro i _
    by_cases hid : i ≤ d
    · have : blockStart b i ≤ n := le_trans (blockStart_mono b hid) h1
      simp [this, hid]
    · have hgt : d + 1 ≤ i := by omega
      have : blockStart b (d + 1) ≤ blockStart b i := blockStart_mono b hgt
      have : ¬ blockStart b i ≤ n := by omega
      simp [this, hid]
  rw [hcongr, filter_range_le_eq]
  have : min b.length (d + 1) = d + 1 := by omega
  rw [this]
  simp

theorem exists_block (b : List ℕ) :
    ∀ m n, n < blockStart b m →
      ∃ d, d < m ∧ blockStart b d ≤ n ∧ n < blockStart b (d + 1) := by
  intro m
  induction m with
  | zero => intro n hn; rw [blockStart_zero] at hn; omega
  | succ m ih =>
    intro n hn
    by_cases hm : n < blockStart b m
    · obtain ⟨d, hd, h1, h2⟩ := ih n hm
      exact ⟨d, by omega, h1, h2⟩
    · exact ⟨m, by omega, by omega, hn⟩

/-- Bracketing of a valid node id by the block of its depth. -/
theorem depth_block {b : List ℕ} {n : ℕ} (hn : n < medusaLen b) :
    depthOf b n < b.length ∧ blockStart b (depthOf b n) ≤ n ∧
      n < blockStart b (depthOf b n + 1) := by
  obtain ⟨d, hd, h1, h2⟩ := exists_block b b.length n hn
  have := depthOf_eq hd h1 h2
  rw [this]
  exact ⟨hd, h1, h2⟩

end TopologyLemmas

section RepeatInterleaveLemmas

theorem repeatInterleave_length (l : List ℕ) (k : ℕ) :
    (repeatInterleave l k).length = l.length * k := by
  induction l with
  | nil => simp [repeatInterleave]
  | cons x xs ih =>
    show (List.replicate k x ++ repeatInterleave xs k).length = (x :: xs).length * k
    rw [List.length_append, List.length_replicate, ih, List.length_cons]
    ring

theorem repeatInterleave_getD (l : List ℕ) {k : ℕ} (hk : 0 < k) (d : ℕ) :
    ∀ j, j < l.length * k → (repeatInterleave l k).getD j d = l.getD (j / k) d := by
  induction l with
  | nil => intro j hj; simp at hj
  | cons x xs ih =>
    intro j hj
    show (List.replicate k x ++ repeatInterleave xs k).getD j d = _
    by_cases hjk : j < k
    · rw [List.getD_append _ _ _ _ (by simpa using hjk), Nat.div_eq_of_lt hjk,
        List.getD_eq_getElem _ _ (by simpa using hjk)]
      simp
    · push_neg at hjk
      rw [List.getD_append_right _ _ _ _ (by simpa using hjk)]
      have hjq : 1 ≤ j / k := (Nat.one_le_div_iff hk).mpr hjk
      have hdiv : (j - k) / k = j / k - 1 := by
        have h1 : j - k + k = j := Nat.sub_add_cancel hjk
        have h2 : (j - k + k) / k = (j - k) / k + 1 := Nat.add_div_right _ hk
        rw [h1] at h2
        omega
      have hjlt : j - k < xs.length * k := by
        rw [List.length_cons] at hj
        have : (xs.length + 1) * k = xs.length * k + k := by ring
        omega
      rw [List.length_replicate, ih (j - k) hjlt, hdiv]
      obtain ⟨m, hm⟩ : ∃ m, j / k = m + 1 := ⟨j / k - 1, by omega⟩
      rw [hm, List.getD_cons_succ]
      simp

theorem range'_getD {s n i : ℕ} (hi : i < n) (d : ℕ) :
    (List.range' s n).getD i d = s + i := by
  rw [List.getD_eq_getElem _ _ (by simpa using hi)]
  simp

end RepeatInterleaveLemmas

section ParentChainLemmas

theorem getD_zero_eq_getD_one {b : List ℕ} {i : ℕ} (hi : i < b.length) :
    b.getD i 0 = b.getD i 1 := by
  rw [List.getD_eq_getElem b 0 hi, List.getD_eq_getElem b 1 hi]

theorem getD_pos {b : List ℕ} (hpos : ∀ x ∈ b, 0 < x) {i : ℕ} (hi : i < b.length) :
    0 < b.getD i 0 := by
  rw [List.getD_eq_getElem b 0 hi]
  exact hpos _ (List.getElem_mem hi)

theorem cpPrev_eq_cp (b : List ℕ) {d : ℕ} (hd : 1 ≤ d) : cpPrev b d = cp b (d - 1) := by
  unfold cpPrev cp
  rw [Nat.sub_add_cancel hd]

theorem cp_block_mul {b : List ℕ} {d : ℕ} (hd1 : 1 ≤ d) (hdL : d < b.length) :
    cp b d = cp b (d - 1) * b.getD d 0 := by
  rw [cp_eq_cpPrev_mul hdL, cpPrev_eq_cp b hd1]

theorem parentList_length {b : List ℕ} {i : ℕ} (hi1 : 1 ≤ i) (hiL : i < b.length) :
    (parentList b i).length = cp b i := by
  unfold parentList
  rw [repeatInterleave_length, List.length_range', ← cp_block_mul hi1 hiL]

theorem parentList_getD {b : List ℕ} (hpos : ∀ x ∈ b, 0 < x) {i : ℕ} (hi1 : 1 ≤ i)
    (hiL : i < b.length) {j : ℕ} (hj : j < cp b i) :
    (parentList b i).getD j 0 = blockStart b (i - 1) + j / b.getD i 0 := by
  unfold parentList
  have hb := getD_pos hpos hiL
  have hjlen : j < (List.range' (blockStart b (i - 1)) (cp b (i - 1))).length * b.getD i 0 := by
    rw [List.length_range', ← cp_block_mul hi1 hiL]
    exact hj
  rw [repeatInterleave_getD _ hb 0 j hjlen]
  have hq : j / b.getD i 0 < cp b (i - 1) := by
    rw [Nat.div_lt_iff_lt_mul hb]
    rw [cp_block_mul hi1 hiL] at hj
    exact hj
  exact range'_getD hq 0

theorem parentOf_in_block {b : List ℕ} (hpos : ∀ x ∈ b, 0 < x) {d n : ℕ} (hd1 : 1 ≤ d)
    (hdL : d < b.length) (h1 : blockStart b d ≤ n) (h2 : n < blockStart b (d + 1)) :
    blockStart b (d - 1) ≤ parentOf b n ∧ parentOf b n < blockStart b d ∧
      parentOf b n < n := by
  have hdep : depthOf b n = d := depthOf_eq hdL h1 h2
  have hb : 0 < b.getD d 1 := by rw [← getD_zero_eq_getD_one hdL]; exact getD_pos hpos hdL
  have hoff : n - blockStart b d < cp b d := by
    rw [blockStart_succ] at h2; omega
  have hpar : parentOf b n = blockStart b (d - 1) + (n - blockStart b d) / b.getD d 1 := by
    unfold parentOf; rw [hdep]
  have hq : (n - blockStart b d) / b.getD d 1 < cp b (d - 1) := by
    rw [Nat.div_lt_iff_lt_mul hb]
    rw [cp_block_mul hd1 hdL, getD_zero_eq_getD_one hdL] at hoff
    exact hoff
  have hstart : blockStart b (d - 1) + cp b (d - 1) = blockStart b d := by
    have := blockStart_succ b (d - 1)
    rw [Nat.sub_add_cancel hd1] at this
    omega
  obtain ⟨q, hqdef⟩ : ∃ q, (n - blockStart b d) / b.getD d 1 = q := ⟨_, rfl⟩
  rw [hqdef] at hpar hq
  refine ⟨?_, ?_, ?_⟩ <;> rw [hpar] <;> omega

theorem depthOf_parentOf {b : List ℕ} (hpos : ∀ x ∈ b, 0 < x) {d n : ℕ} (hd1 : 1 ≤ d)
    (hdL : d < b.length) (h1 : blockStart b d ≤ n) (h2 : n < blockStart b (d + 1)) :
    depthOf b (parentOf b n) = d - 1 := by
  obtain ⟨hp1, hp2, _⟩ := parentOf_in_block hpos hd1 hdL h1 h2
  have hsucc : d - 1 + 1 = d := Nat.sub_add_cancel hd1
  exact depthOf_eq (by omega) hp1 (by rw [hsucc]; exact hp2)

theorem chains_zero (b : List ℕ) (n : ℕ) : chains b 0 n = [n] := rfl

theorem chains_length (b : List ℕ) : ∀ d n, (chains b d n).length = d + 1 := by
  intro d
  induction d with
  | zero => intro n; rfl
  | succ d ih => intro n; simp [chains, ih]

theorem chain_bounds {b : List ℕ} (hpos : ∀ x ∈ b, 0 < x) :
    ∀ d n, d < b.length → blockStart b d ≤ n → n < blockStart b (d + 1) →
      (∀ m ∈ chains b d n, m ≤ n) ∧ (chains b d n).Pairwise (fun a c => c < a) := by
  intro d
  induction d with
  | zero =>
    intro n _ _ _
    constructor
    · intro m hm; simp [chains] at hm; omega
    · simp [chains]
  | succ d ih =>
    intro n hd h1 h2
    obtain ⟨hp1, hp2, hplt⟩ := parentOf_in_block hpos (by omega) hd h1 h2
    have hdl : d < b.length := by omega
    have hp2' : parentOf b n < blockStart b (d + 1) := by
      simpa using hp2
    obtain ⟨ihmem, ihpair⟩ := ih (parentOf b n) hdl (by simpa using hp1) hp2'
    constructor
    · intro m hm
      rcases List.mem_cons.mp hm with hh | hh
      · omega
      · exact le_trans (ihmem m hh) (le_of_lt hplt)
    · refine List.Pairwise.cons ?_ ihpair
      intro m hm
      exact lt_of_le_of_lt (ihmem m hm) hplt

theorem chainList_eq_chains {b : List ℕ} {d n : ℕ} (hdL : d < b.length)
    (h1 : blockStart b d ≤ n) (h2 : n < blockStart b (d + 1)) :
    chainList b n = chains b d n := by
  unfold chainList
  rw [depthOf_eq hdL h1 h2]

theorem chainList_le {b : List ℕ} (hpos : ∀ x ∈ b, 0 < x) {d n : ℕ} (hdL : d < b.length)
    (h1 : blockStart b d ≤ n) (h2 : n < blockStart b (d + 1)) :
    ∀ m ∈ chainList b n, m ≤ n := by
  rw [chainList_eq_chains hdL h1 h2]
  exact (chain_bounds hpos d n hdL h1 h2).1

theorem chainList_cons {b : List ℕ} (hpos : ∀ x ∈ b, 0 < x) {d n : ℕ} (hd1 : 1 ≤ d)
    (hdL : d < b.length) (h1 : blockStart b d ≤ n) (h2 : n < blockStart b (d + 1)) :
    chainList b n = n :: chainList b (parentOf b n) := by
  obtain ⟨hp1, hp2, _⟩ := parentOf_in_block hpos hd1 hdL h1 h2
  have hsucc : d - 1 + 1 = d := Nat.sub_add_cancel hd1
  have hpchain : chainList b (parentOf b n) = chains b (d - 1) (parentOf b n) :=
    chainList_eq_chains (by omega) hp1 (by rw [hsucc]; exact hp2)
  rw [chainList_eq_chains hdL h1 h2, hpchain, ← hsucc]
  rfl

end ParentChainLemmas

section MaskLemmas

theorem maskFold_succ (b : List ℕ) (k : ℕ) :
    (List.range (k + 1)).foldl (maskStep b) idMask =
      maskStep b ((List.range k).foldl (maskStep b) idMask) k := by
  rw [List.range_succ, List.foldl_append]
  rfl

theorem maskStep_zero (b : List ℕ) (M : ℕ → ℕ → ℕ) : maskStep b M 0 = M := by
  unfold maskStep; rw [if_pos rfl]

theorem maskStep_pos (b : List ℕ) (M : ℕ → ℕ → ℕ) {i : ℕ} (hi : i ≠ 0) (r c : ℕ) :
    maskStep b M i r c =
      if blockStart b i ≤ r ∧ r < blockStart b i + (parentList b i).length
      then M r c + M ((parentList b i).getD (r - blockStart b i) 0) c
      else M r c := by
  unfold maskStep; rw [if_neg hi]

/-- Invariant of the attention-mask update loop: after the iterations `i < k`, the rows
of nodes below `blockStart b k` hold the indicator of their ancestor chain, and all later
rows still hold their identity (`torch.eye`) value. -/
theorem mask_inv {b : List ℕ} (hpos : ∀ x ∈ b, 0 < x) :
    ∀ k, k ≤ b.length → ∀ r c,
      (r < blockStart b k →
        (List.range k).foldl (maskStep b) idMask r c =
          (if c ∈ chainList b r then 1 else 0)) ∧
      (blockStart b k ≤ r →
        (List.range k).foldl (maskStep b) idMask r c = idMask r c) := by
  intro k
  induction k with
  | zero =>
    intro _ r c
    refine ⟨?_, ?_⟩
    · intro h; rw [blockStart_zero] at h; omega
    · intro _; rfl
  | succ k ih =>
    intro hk r c
    have hk' : k ≤ b.length := by omega
    have hkL : k < b.length := by omega
    rw [maskFold_succ]
    by_cases hk0 : k = 0
    · subst hk0
      rw [maskStep_zero]
      refine ⟨?_, ?_⟩
      · intro hr
        have hr0 : blockStart b 0 ≤ r := by rw [blockStart_zero]; omega
        have hchain : chainList b r = [r] := by
          rw [chainList_eq_chains hkL hr0 hr, chains_zero]
        rw [(ih hk' r c).2 (by rw [blockStart_zero]; omega), hchain]
        unfold idMask
        by_cases hc : c = r
        · subst hc; simp
        · have hrc : r ≠ c := fun h => hc h.symm
          simp [hc, hrc]
      · intro _
        exact (ih hk' r c).2 (by rw [blockStart_zero]; omega)
    · have hk1 : 1 ≤ k := by omega
      have hlen : (parentList b k).length = cp b k := parentList_length hk1 hkL
      refine ⟨?_, ?_⟩
      · intro hr
        by_cases hrk : blockStart b k ≤ r
        · have hrcp : r < blockStart b k + cp b k := by
            rw [← blockStart_succ]; exact hr
          rw [maskStep_pos b _ hk0 r c, if_pos (by rw [hlen]; exact ⟨hrk, hrcp⟩)]
          have hj : r - blockStart b k < cp b k := by omega
          have hdep : depthOf b r = k := depthOf_eq hkL hrk hr
          have hpar_eq : (parentList b k).getD (r - blockStart b k) 0 = parentOf b r := by
            rw [parentList_getD hpos hk1 hkL hj]
            unfold parentOf
            rw [hdep, getD_zero_eq_getD_one hkL]
          rw [hpar_eq]
          obtain ⟨hp1, hp2, hplt⟩ := parentOf_in_block hpos hk1 hkL hrk hr
          rw [(ih hk' r c).2 hrk, (ih hk' (parentOf b r) c).1 hp2]
          rw [chainList_cons hpos hk1 hkL hrk hr]
          have hsu : k - 1 + 1 = k := by omega
          have hparle : ∀ m ∈ chainList b (parentOf b r), m ≤ parentOf b r :=
            chainList_le hpos (by omega) hp1 (by rw [hsu]; exact hp2)
          have hnotmem : r ∉ chainList b (parentOf b r) := by
            intro hmem
            have := hparle r hmem
            omega
          unfold idMask
          by_cases hc : c = r
          · subst hc
            simp [hnotmem]
          · have hrc : r ≠ c := fun h => hc h.symm
            simp [hc, hrc, List.mem_cons]
        · push_neg at hrk
          rw [maskStep_pos b _ hk0 r c, if_neg (by rintro ⟨h1, -⟩; omega)]
          exact (ih hk' r c).1 hrk
      · intro hr
        have hr' : blockStart b k ≤ r := le_trans (blockStart_mono b (by omega)) hr
        rw [maskStep_pos b _ hk0 r c,
          if_neg (by
            rw [hlen]
            rintro ⟨-, h2⟩
            rw [← blockStart_succ] at h2
            omega)]
        exact (ih hk' r c).2 hr'

theorem medusaAttnMask_eq_chain {b : List ℕ} (hpos : ∀ x ∈ b, 0 < x) {n : ℕ}
    (hn : n < medusaLen b) (c : ℕ) :
    medusaAttnMask b n c = if c ∈ chainList b n then 1 else 0 :=
  (mask_inv hpos b.length le_rfl n c).1 hn

theorem chainList_nodup {b : List ℕ} (hpos : ∀ x ∈ b, 0 < x) {n : ℕ}
    (hn : n < medusaLen b) : (chainList b n).Nodup := by
  obtain ⟨hdL, h1, h2⟩ := depth_block hn
  rw [chainList_eq_chains hdL h1 h2]
  exact ((chain_bounds hpos (depthOf b n) n hdL h1 h2).2).imp
    (fun h => (ne_of_lt h).symm)

theorem chainList_length {b : List ℕ} {n : ℕ} (hn : n < medusaLen b) :
    (chainList b n).length = depthOf b n + 1 := by
  obtain ⟨hdL, h1, h2⟩ := depth_block hn
  rw [chainList_eq_chains hdL h1 h2, chains_length]

theorem mask_row_card {b : List ℕ} (hpos : ∀ x ∈ b, 0 < x) {n : ℕ}
    (hn : n < medusaLen b) :
    ((Finset.range (medusaLen b)).filter (fun c => medusaAttnMask b n c = 1)).card =
      depthOf b n + 1 := by
  have hfeq : (Finset.range (medusaLen b)).filter (fun c => medusaAttnMask b n c = 1) =
      (chainList b n).toFinset := by
    ext c
    simp only [Finset.mem_filter, Finset.mem_range, List.mem_toFinset]
    constructor
    · rintro ⟨hc, hmask⟩
      rw [medusaAttnMask_eq_chain hpos hn c] at hmask
      by_contra hmem
      rw [if_neg hmem] at hmask
      exact zero_ne_one hmask
    · intro hmem
      obtain ⟨hdL, h1, h2⟩ := depth_block hn
      have hle := chainList_le hpos hdL h1 h2 c hmem
      refine ⟨by omega, ?_⟩
      rw [medusaAttnMask_eq_chain hpos hn c, if_pos hmem]
  rw [hfeq, List.toFinset_card_of_nodup (chainList_nodup hpos hn), chainList_length hn]

end MaskLemmas

/-- C5: for every `BranchSpec` of positive integers and every node `n` of the resulting
tree, row `n` of the attention mask built by `generate_medusa_buffers` is exactly the
indicator of the root-to-`n` ancestor chain (so every other entry of that row is 0), and
the number of entries set to 1 in that row is exactly `depth(n) + 1`. -/
theorem c5_attn_mask_ancestry (b : List ℕ) (hpos : ∀ x ∈ b, 0 < x) (n : ℕ)
    (hn : n < medusaLen b) :
    (∀ c, c < medusaLen b →
      medusaAttnMask b n c = if c ∈ chainList b n then 1 else 0) ∧
    ((Finset.range (medusaLen b)).filter (fun c => medusaAttnMask b n c = 1)).card =
      depthOf b n + 1 :=
  ⟨fun c _ => medusaAttnMask_eq_chain hpos hn c, mask_row_card hpos hn⟩

/-- Witness for C5 at the concrete branch spec `[2, 3]`, node 5 (a depth-1 node): its
mask row is the indicator of its chain and holds exactly 2 ones. -/
theorem c5_attn_mask_ancestry_witness :
    (∀ x ∈ ([2, 3] : List ℕ), 0 < x) ∧ 5 < medusaLen [2, 3] ∧
    ((∀ c, c < medusaLen [2, 3] →
        medusaAttnMask [2, 3] 5 c = if c ∈ chainList [2, 3] 5 then 1 else 0) ∧
      ((Finset.range (medusaLen [2, 3])).filter
          (fun c => medusaAttnMask [2, 3] 5 c = 1)).card = depthOf [2, 3] 5 + 1) :=
  ⟨by decide, by decide, c5_attn_mask_ancestry [2, 3] (by decide) 5 (by decide)⟩

section BufferShapeLemmas

theorem repeatInterleave_one (l : List ℕ) : repeatInterleave l 1 = l := by
  induction l with
  | nil => rfl
  | cons x xs ih =>
    show List.replicate 1 x ++ repeatInterleave xs 1 = x :: xs
    rw [ih]
    rfl

theorem flatten_replicate_length (k : ℕ) (l : List ℕ) :
    (List.replicate k l).flatten.length = k * l.length := by
  induction k with
  | zero => simp
  | succ k ih =>
    rw [List.replicate_succ]
    show (l ++ (List.replicate k l).flatten).length = (k + 1) * l.length
    rw [List.length_append, ih]
    ring

theorem flatMap_range_succ {β : Type} (f : ℕ → List β) (n : ℕ) :
    (List.range (n + 1)).flatMap f = (List.range n).flatMap f ++ f n := by
  rw [List.range_succ, List.flatMap_append]
  simp

theorem treeIndices_length (b : List ℕ) : (treeIndices b).length = medusaLen b := by
  suffices h : ∀ m, m ≤ b.length →
      ((List.range m).flatMap (fun i =>
        (List.replicate (cpPrev b i)
          (List.range' ((b.take i).sum) (b.getD i 0))).flatten)).length
        = blockStart b m by
    exact h b.length le_rfl
  intro m
  induction m with
  | zero => intro _; simp [blockStart_zero]
  | succ m ih =>
    intro hm
    rw [flatMap_range_succ, List.length_append, ih (by omega), flatten_replicate_length,
      List.length_range', blockStart_succ, ← cp_eq_cpPrev_mul (by omega : m < b.length)]

theorem medusaPositionIds_length (b : List ℕ) :
    (medusaPositionIds b).length = medusaLen b := by
  suffices h : ∀ m, ((List.range m).flatMap (fun i => List.replicate (cp b i) i)).length
      = blockStart b m by
    exact h b.length
  intro m
  induction m with
  | zero => simp [blockStart_zero]
  | succ m ih =>
    rw [flatMap_range_succ, List.length_append, ih, List.length_replicate, blockStart_succ]

theorem attnMatrix_length (b : List ℕ) : (attnMatrix b).length = medusaLen b := by
  simp [attnMatrix]

theorem attnMatrix_row_length (b : List ℕ) :
    ∀ row ∈ attnMatrix b, row.length = medusaLen b := by
  intro row hrow
  obtain ⟨r, _, hr⟩ := List.mem_map.mp hrow
  rw [← hr]
  simp

theorem numPaths_pos {b : List ℕ} (hpos : ∀ x ∈ b, 0 < x) : 0 < numPaths b :=
  List.prod_pos hpos

theorem cp_last {b : List ℕ} (hne : b ≠ []) : cp b (b.length - 1) = numPaths b := by
  unfold cp numPaths
  have h1 : b.length - 1 + 1 = b.length := by
    have := List.length_pos.mpr hne
    omega
  rw [h1, List.take_length]

/-- The last column of `retrieve_indices` enumerates the leaf block in order: entry `r`
is `blockStart (L-1) + r`. -/
theorem retrieveCol_last_getD {b : List ℕ} (hne : b ≠ []) (hpos : ∀ x ∈ b, 0 < x)
    {r : ℕ} (hr : r < numPaths b) :
    (retrieveCol b (b.length - 1)).getD r 0 = blockStart b (b.length - 1) + r := by
  unfold retrieveCol
  rw [cp_last hne, Nat.div_self (numPaths_pos hpos), repeatInterleave_one]
  exact range'_getD hr 0

theorem retrieveRow_getD_last {b : List ℕ} (hne : b ≠ []) (r : ℕ) :
    (retrieveRow b r).getD (b.length - 1) 0 =
      (retrieveCol b (b.length - 1)).getD r 0 := by
  unfold retrieveRow
  have hL : 0 < b.length := List.length_pos.mpr hne
  exact getD_map_range _ (by omega) 0

theorem retrieveRow_ne {b : List ℕ} (hne : b ≠ []) (hpos : ∀ x ∈ b, 0 < x)
    {r s : ℕ} (hr : r < numPaths b) (hs : s < numPaths b) (hrs : r ≠ s) :
    retrieveRow b r ≠ retrieveRow b s := by
  intro heq
  have h1 : (retrieveRow b r).getD (b.length - 1) 0 =
      (retrieveRow b s).getD (b.length - 1) 0 := by rw [heq]
  rw [retrieveRow_getD_last hne r, retrieveRow_getD_last hne s,
    retrieveCol_last_getD hne hpos hr, retrieveCol_last_getD hne hpos hs] at h1
  omega

end BufferShapeLemmas

/-- C4: for every non-empty `BranchSpec` of positive integers, the buffers produced by
`generate_medusa_buffers` have the advertised shapes: the node count is the sum over
depths of the cumulative products, the attention mask is N x N, `tree_indices` and the
position ids have length N, `retrieve_indices` is a `(prod b) x (len b)` matrix, and all
of its rows are pairwise distinct. -/
theorem c4_buffer_shapes (b : List ℕ) (hne : b ≠ []) (hpos : ∀ x ∈ b, 0 < x) :
    medusaLen b = ∑ i in Finset.range b.length, cp b i ∧
    (attnMatrix b).length = medusaLen b ∧
    (∀ row ∈ attnMatrix b, row.length = medusaLen b) ∧
    (treeIndices b).length = medusaLen b ∧
    (medusaPositionIds b).length = medusaLen b ∧
    (retrieveIndices b).length = numPaths b ∧
    (∀ row ∈ retrieveIndices b, row.length = b.length) ∧
    (∀ r s, r < numPaths b → s < numPaths b → r ≠ s →
      retrieveRow b r ≠ retrieveRow b s) := by
  refine ⟨rfl, attnMatrix_length b, attnMatrix_row_length b, treeIndices_length b,
    medusaPositionIds_length b, by simp [retrieveIndices], ?_, ?_⟩
  · intro row hrow
    obtain ⟨r, _, hr⟩ := List.mem_map.mp hrow
    rw [← hr]
    simp [retrieveRow]
  · intro r s hr hs hrs
    exact retrieveRow_ne hne hpos hr hs hrs

/-- Witness for C4 at `BranchSpec = [2, 3]`: N = 8 nodes, 6 paths, a 6 x 2 path table
with pairwise-distinct rows. -/
theorem c4_buffer_shapes_witness :
    ([2, 3] : List ℕ) ≠ [] ∧ (∀ x ∈ ([2, 3] : List ℕ), 0 < x) ∧
    medusaLen [2, 3] = 8 ∧ numPaths [2, 3] = 6 ∧
    (medusaLen [2, 3] = ∑ i in Finset.range ([2, 3] : List ℕ).length, cp [2, 3] i ∧
      (attnMatrix [2, 3]).length = medusaLen [2, 3] ∧
      (∀ row ∈ attnMatrix [2, 3], row.length = medusaLen [2, 3]) ∧
      (treeIndices [2, 3]).length = medusaLen [2, 3] ∧
      (medusaPositionIds [2, 3]).length = medusaLen [2, 3] ∧
      (retrieveIndices [2, 3]).length = numPaths [2, 3] ∧
      (∀ row ∈ retrieveIndices [2, 3], row.length = ([2, 3] : List ℕ).length) ∧
      (∀ r s, r < numPaths [2, 3] → s < numPaths [2, 3] → r ≠ s →
        retrieveRow [2, 3] r ≠ retrieveRow [2, 3] s)) :=
  ⟨by decide, by decide, by decide, by decide,
    c4_buffer_shapes [2, 3] (by decide) (by decide)⟩

/-- The kinds of Python exceptions relevant to these code paths.  `valueError` is the
deliberate validation error (the spec's ConfigurationError); the other two are
incidental runtime crashes. -/
inductive PyError : Type
  | indexError : PyError
  | zeroDivisionError : PyError
  | valueError : String → PyError
  deriving DecidableEq

/-- The buffer dictionary returned by `generate_medusa_buffers` (the experimental
`list_indices` buffer is not modelled). -/
structure MedusaBuffers : Type where
  medusa_attn_mask : List (List ℕ)
  tree_indices : List ℕ
  medusa_position_ids : List ℕ
  retrieve_indices : List (List ℕ)
  deriving DecidableEq

/-- `generate_medusa_buffers` with its failure behaviour on invalid branch specs.
The source performs no validation at all: on an empty spec, `cumulative_sum[-1]`
(indexing an empty tensor) raises an IndexError before any buffer is returned; on a spec
containing a zero entry, the retrieve-indices loop evaluates
`medusa_len_prod // (cumprod_sum - prev_cumprod_sum)` whose divisor is
`cumulative_product[i] = 0` at the first zero entry, raising a ZeroDivisionError (the
dividend `medusa_len_prod` is also 0).  All earlier operations (empty slices,
`.repeat(0, 1)`, `[i] * 0`) succeed on such specs.  On a non-empty, all-positive spec
every divisor is positive and the buffers are returned. -/
def generate_medusa_buffers (b : List ℕ) : Except PyError MedusaBuffers :=
  if b.isEmpty then Except.error PyError.indexError
  else if b.contains 0 then Except.error PyError.zeroDivisionError
  else Except.ok
    { medusa_attn_mask := attnMatrix b
      tree_indices := treeIndices b
      medusa_position_ids := medusaPositionIds b
      retrieve_indices := retrieveIndices b }

/-- Counterexample for C9: on the invalid branch spec `[0]` the builder does fail, but
with an incidental ZeroDivisionError from the retrieve-indices arithmetic, not with a
configuration/validation error (which in this code base is a `valueError`); the empty
spec likewise dies with an IndexError.  So the claim that invalid specs are rejected
with a ConfigurationError is false. -/
theorem c9_counterexample :
    generate_medusa_buffers [0] = Except.error PyError.zeroDivisionError ∧
    generate_medusa_buffers [] = Except.error PyError.indexError :=
  ⟨rfl, rfl⟩

/-- C9 amended: `generate_medusa_buffers` performs no input validation.  An empty
BranchSpec fails with an IndexError, a BranchSpec containing a zero entry fails with a
ZeroDivisionError, and no input ever produces a validation (`valueError` /
ConfigurationError) failure. -/
theorem c9_amended (b : List ℕ) :
    (b = [] → generate_medusa_buffers b = Except.error PyError.indexError) ∧
    (b ≠ [] → 0 ∈ b → generate_medusa_buffers b = Except.error PyError.zeroDivisionError) ∧
    (∀ msg, generate_medusa_buffers b ≠ Except.error (PyError.valueError msg)) := by
  unfold generate_medusa_buffers
  refine ⟨?_, ?_, ?_⟩
  · intro hb; subst hb; rfl
  · intro hne h0
    rw [if_neg (by simpa using hne), if_pos (by simpa using h0)]
  · intro msg
    by_cases h1 : b.isEmpty
    · rw [if_pos h1]; simp
    · rw [if_neg h1]
      by_cases h2 : b.contains 0
      · rw [if_pos h2]; simp
      · rw [if_neg h2]; simp

/-- Witness for the amended C9 at the concrete invalid spec `[0]`. -/
theorem c9_amended_witness :
    ([0] : List ℕ) ≠ [] ∧ (0 : ℕ) ∈ ([0] : List ℕ) ∧
    generate_medusa_buffers [0] = Except.error PyError.zeroDivisionError :=
  ⟨by decide, by decide, (c9_amended [0]).2.1 (by decide) (by decide)⟩

/-!
## CandidateGenerator: `generate_candidates`

Source (`medusa_utils.py`, lines 444-478).
-/

/-- Extract the leftmost maximal-value pair among `p :: l`, together with the remaining
pairs (one selection step of `torch.topk`). -/
def extractMaxCons (p : ℕ × ℚ) : List (ℕ × ℚ) → ((ℕ × ℚ) × List (ℕ × ℚ))
  | [] => (p, [])
  | x :: xs =>
    if p.2 < (extractMaxCons x xs).1.2
    then ((extractMaxCons x xs).1, p :: (extractMaxCons x xs).2)
    else (p, x :: xs)

/-- `k` rounds of maximal extraction. -/
def topkAux : ℕ → List (ℕ × ℚ) → List ℕ
  | 0, _ => []
  | _ + 1, [] => []
  | k + 1, x :: xs => (extractMaxCons x xs).1.1 :: topkAux k (extractMaxCons x xs).2

/-- Indices of the `k` largest entries of a logits row
(`torch.topk(row, k).indices`). -/
def topkIndices (row : List ℚ) (k : ℕ) : List ℕ := topkAux k row.enum

/-- Rows of `torch.cartesian_prod(*lists)` in lexicographic order. -/
def cartesianProd : List (List ℕ) → List (List ℕ)
  | [] => [[]]
  | l :: ls => l.flatMap (fun x => (cartesianProd ls).map (fun r => x :: r))

/-- `generate_candidates(medusa_logits, logits, medusa_topk, tree_indices)`.
`logits` is the batch-1 base-logits matrix (sequence x vocab); `medusa_logits` holds one
vocab row per head (the slice `medusa_logits[i, 0, -1]` of the source).  The root is the
greedy choice `argmax(logits[:, -1])`; each head contributes its top-k tokens; the
source's `len(set(medusa_topk)) == 1` branch computes the same per-head top-k batched.
Returns `(candidates, tree_candidates)` with
`candidates = torch.cartesian_prod(root, topk_1, ...)` and
`tree_candidates = candidates_flat[tree_indices]` (the batch dim of the source's
`unsqueeze(0)` is dropped). -/
def generate_candidates (medusa_logits : List (List ℚ)) (logits : List (List ℚ))
    (medusa_topk : List ℕ) (tree_indices : List ℕ) : List (List ℕ) × List ℕ :=
  let root : ℕ := argmaxIdx (logits.getLastD [])
  let cands : List (List ℕ) :=
    [root] :: (List.zip medusa_logits medusa_topk).map (fun hk => topkIndices hk.1 hk.2)
  let candidates_flat := cands.flatten
  (cartesianProd cands, tree_indices.map (fun i => candidates_flat.getD i 0))

section CandidateLemmas

theorem extractMaxCons_length (p : ℕ × ℚ) :
    ∀ l : List (ℕ × ℚ), (extractMaxCons p l).2.length = l.length := by
  intro l
  induction l generalizing p with
  | nil => rfl
  | cons x xs ih =>
    unfold extractMaxCons
    by_cases hc : p.2 < (extractMaxCons x xs).1.2
    · rw [if_pos hc]
      simp [ih x]
    · rw [if_neg hc]

theorem topkAux_length : ∀ (k : ℕ) (l : List (ℕ × ℚ)), k ≤ l.length →
    (topkAux k l).length = k := by
  intro k
  induction k with
  | zero => intro l _; rfl
  | succ k ih =>
    intro l hk
    cases l with
    | nil => simp at hk
    | cons x xs =>
      show ((extractMaxCons x xs).1.1 :: topkAux k (extractMaxCons x xs).2).length = k + 1
      rw [List.length_cons, ih (extractMaxCons x xs).2 (by rw [extractMaxCons_length]; simpa using hk)]

theorem topkIndices_length (row : List ℚ) (k : ℕ) (hk : k ≤ row.length) :
    (topkIndices row k).length = k := by
  unfold topkIndices
  exact topkAux_length k row.enum (by simpa using hk)

theorem cartesianProd_length (ls : List (List ℕ)) :
    (cartesianProd ls).length = (ls.map List.length).prod := by
  induction ls with
  | nil => rfl
  | cons l ls ih =>
    have hbase : ∀ (t : List ℕ),
        (t.flatMap (fun x => (cartesianProd ls).map (fun r => x :: r))).length =
          t.length * (cartesianProd ls).length := by
      intro t
      induction t with
      | nil => simp
      | cons x xs ih2 =>
        show ((cartesianProd ls).map (fun r => x :: r) ++
            xs.flatMap (fun x => (cartesianProd ls).map (fun r => x :: r))).length = _
        rw [List.length_append, List.length_map, ih2, List.length_cons]
        ring
    show (l.flatMap (fun x => (cartesianProd ls).map (fun r => x :: r))).length = _
    rw [hbase l, ih, List.map_cons, List.prod_cons]

theorem cartesianProd_mem_cons {l : List ℕ} {ls : List (List ℕ)} {row : List ℕ}
    (h : row ∈ cartesianProd (l :: ls)) :
    ∃ x ∈ l, ∃ r ∈ cartesianProd ls, row = x :: r := by
  have h' : row ∈ l.flatMap (fun x => (cartesianProd ls).map (fun r => x :: r)) := h
  obtain ⟨x, hx, hrow⟩ := List.mem_flatMap.mp h'
  obtain ⟨r, hr, hrr⟩ := List.mem_map.mp hrow
  exact ⟨x, hx, r, hr, hrr.symm⟩

end CandidateLemmas

/-- C6: `generate_candidates` returns a cartesian-product matrix whose first column is
constantly `argmax(logits[:, -1])` (every path shares the same root token), whose number
of rows is the product of the per-head top-K values, and a `tree_candidates` vector of
the same length as `tree_indices`. -/
theorem c6_candidates_shape (medusa_logits : List (List ℚ)) (logits : List (List ℚ))
    (medusa_topk : List ℕ) (tree_indices : List ℕ)
    (hlen : medusa_logits.length = medusa_topk.length)
    (hk : ∀ pr ∈ List.zip medusa_logits medusa_topk, 1 ≤ pr.2 ∧ pr.2 ≤ pr.1.length) :
    (generate_candidates medusa_logits logits medusa_topk tree_indices).1.length =
      medusa_topk.prod ∧
    (∀ row ∈ (generate_candidates medusa_logits logits medusa_topk tree_indices).1,
      ∃ rest, row = argmaxIdx (logits.getLastD []) :: rest) ∧
    (generate_candidates medusa_logits logits medusa_topk tree_indices).2.length =
      tree_indices.length := by
  refine ⟨?_, ?_, ?_⟩
  · show (cartesianProd _).length = _
    rw [cartesianProd_length]
    have hmap : ((List.zip medusa_logits medusa_topk).map
        (fun hk => topkIndices hk.1 hk.2)).map List.length = medusa_topk := by
      rw [List.map_map]
      have hzip : ∀ pr ∈ List.zip medusa_logits medusa_topk,
          (List.length ∘ fun hk : List ℚ × ℕ => topkIndices hk.1 hk.2) pr = pr.2 := by
        intro pr hpr
        exact topkIndices_length pr.1 pr.2 (hk pr hpr).2
      rw [List.map_congr_left hzip]
      exact List.map_snd_zip _ _ (by omega)
    rw [List.map_cons, hmap, List.prod_cons]
    simp
  · intro row hrow
    obtain ⟨x, hx, r, _, hreq⟩ := cartesianProd_mem_cons hrow
    have : x = argmaxIdx (logits.getLastD []) := by simpa using hx
    exact ⟨r, by rw [hreq, this]⟩
  · show (tree_indices.map _).length = _
    rw [List.length_map]

/-- Witness for C6 at a concrete input: two heads with top-K `[2, 1]`, base logits whose
last-row argmax is token 1; candidates is a 2 x 3 matrix with constant first column 1,
and tree_candidates has the length of tree_indices. -/
theorem c6_candidates_shape_witness :
    ([[1, 2], [3, 1]] : List (List ℚ)).length = ([2, 1] : List ℕ).length ∧
    (∀ pr ∈ List.zip ([[1, 2], [3, 1]] : List (List ℚ)) ([2, 1] : List ℕ),
      1 ≤ pr.2 ∧ pr.2 ≤ pr.1.length) ∧
    ((generate_candidates [[1, 2], [3, 1]] [[0, 5, 1]] [2, 1] [0, 1, 2, 0]).1.length =
        ([2, 1] : List ℕ).prod ∧
      (∀ row ∈ (generate_candidates [[1, 2], [3, 1]] [[0, 5, 1]] [2, 1] [0, 1, 2, 0]).1,
        ∃ rest, row = argmaxIdx (([[0, 5, 1]] : List (List ℚ)).getLastD []) :: rest) ∧
      (generate_candidates [[1, 2], [3, 1]] [[0, 5, 1]] [2, 1] [0, 1, 2, 0]).2.length =
        ([0, 1, 2, 0] : List ℕ).length) :=
  ⟨by decide, by decide,
    c6_candidates_shape [[1, 2], [3, 1]] [[0, 5, 1]] [2, 1] [0, 1, 2, 0]
      (by decide) (by decide)⟩

/-!
## InferenceStateUpdater: `update_inference_inputs`

Source (`medusa_utils.py`, lines 611-691).  Modelled state: `input_ids` (batch 1),
`candidates` (numPaths x (depth+1)), the per-path verification logits
(numPaths x positions x vocab, the same tensor evaluated by `evaluate_posterior`), the
new-token counter, the eos/pad ids and the batch-1 `unfinished_sequences` flag.  The
cache bookkeeping delegated to `model._update_medusa_outputs` mutates external model
state and is not modelled, and neither are the index vectors `select_indices` /
`prev_indices` that are only passed to it.
-/

/-- The tokens selected for appending before the finished-sequence override:
`candidates[None, best_candidate, : accept_length + 1]`, extended, when
`use_base_logits` is set, by `torch.argmax(logits[:, 0], dim=-1)` — the position-0
argmax of EVERY path, a vector of numPaths extra tokens. -/
def nextTokensRaw (candidates : List (List ℕ)) (best_candidate accept_length : ℕ)
    (logits : List (List (List ℚ))) (use_base_logits : Bool) : List ℕ :=
  if use_base_logits then
    ((candidates.getD best_candidate []).take (accept_length + 1)) ++
      logits.map (fun path => argmaxIdx (path.getD 0 []))
  else (candidates.getD best_candidate []).take (accept_length + 1)

/-- `update_inference_inputs`: appends the selected tokens (overridden with the pad
token for finished sequences), truncates the logits to
`logits[None, best_candidate, accept_length : accept_length + 1]` and advances the
new-token counter.  Returns `(input_ids, logits, new_token, next_tokens)`. -/
def update_inference_inputs (input_ids : List ℕ) (candidates : List (List ℕ))
    (best_candidate accept_length : ℕ) (logits : List (List (List ℚ))) (new_token : ℕ)
    (eos_token_id pad_token_id : Option ℕ) (unfinished_sequences : ℕ)
    (use_base_logits : Bool) :
    Except PyError (List ℕ × List (List (List ℚ)) × ℕ × List ℕ) :=
  match eos_token_id, pad_token_id with
  | some _, none =>
      Except.error (PyError.valueError
        "If eos_token_id is defined, make sure that pad_token_id is defined.")
  | some _, some pad =>
      let next_tokens :=
        (nextTokensRaw candidates best_candidate accept_length logits use_base_logits).map
          (fun t => t * unfinished_sequences + pad * (1 - unfinished_sequences))
      Except.ok (input_ids ++ next_tokens,
        [((logits.getD best_candidate []).drop accept_length).take 1],
        new_token + (if use_base_logits then accept_length + 2 else accept_length + 1),
        next_tokens)
  | none, _ =>
      Except.ok (input_ids ++
          nextTokensRaw candidates best_candidate accept_length logits use_base_logits,
        [((logits.getD best_candidate []).drop accept_length).take 1],
        new_token + (if use_base_logits then accept_length + 2 else accept_length + 1),
        nextTokensRaw candidates best_candidate accept_length logits use_base_logits)

/-- C7 (code bug, evaluated at a failing input): with `use_base_logits` set, 2 paths,
`accept_length = 1` and best path 0, the code appends `accept_length + 1 + numPaths = 4`
tokens while advancing the counter by only `accept_length + 2 = 3`, and the appended
"bonus" entries are `argmax(logits[p][0])` for every path `p` (here token 1 twice) —
not the single token `argmax(logits[best][accept_length])` (here token 0) that the
specification describes. -/
theorem c7_bonus_token_eval :
    update_inference_inputs [] [[5, 6, 7], [5, 8, 9]] 0 1
        [[[0, 1], [1, 0], [0, 0]], [[0, 1], [0, 1], [0, 0]]] 0 none none 1 true =
      Except.ok ([5, 6, 1, 1], [[[1, 0]]], 3, [5, 6, 1, 1]) ∧
    ([5, 6, 1, 1] : List ℕ).length ≠ 1 + 2 ∧
    argmaxIdx ([1, 0] : List ℚ) = 0 ∧ (1 : ℕ) ≠ 0 := by
  refine ⟨?_, by decide, by decide, by decide⟩
  rfl

/-- C8: `update_inference_inputs` raises the configuration `ValueError` iff
`eos_token_id` is set and `pad_token_id` is not; when both are configured, a finished
sequence (`unfinished == 0`) has every appended token overridden with the pad token,
while an unfinished sequence (`unfinished == 1`) receives the selected candidate tokens
unchanged. -/
theorem c8_pad_override (input_ids : List ℕ) (candidates : List (List ℕ))
    (best_candidate accept_length : ℕ) (logits : List (List (List ℚ))) (new_token : ℕ)
    (eos_token_id pad_token_id : Option ℕ) (u : ℕ) (use_base_logits : Bool) :
    ((∃ e, update_inference_inputs input_ids candidates best_candidate accept_length
        logits new_token eos_token_id pad_token_id u use_base_logits =
          Except.error e) ↔
      (eos_token_id.isSome = true ∧ pad_token_id = none)) ∧
    (∀ ev p, eos_token_id = some ev → pad_token_id = some p → u = 0 →
      ∃ ids lg c nt, update_inference_inputs input_ids candidates best_candidate
          accept_length logits new_token eos_token_id pad_token_id u use_base_logits =
            Except.ok (ids, lg, c, nt) ∧ ∀ t ∈ nt, t = p) ∧
    (∀ ev p, eos_token_id = some ev → pad_token_id = some p → u = 1 →
      ∃ ids lg c, update_inference_inputs input_ids candidates best_candidate
          accept_length logits new_token eos_token_id pad_token_id u use_base_logits =
            Except.ok (ids, lg, c,
              nextTokensRaw candidates best_candidate accept_length logits
                use_base_logits) ∧
        ids = input_ids ++
          nextTokensRaw candidates best_candidate accept_length logits
            use_base_logits) := by
  refine ⟨?_, ?_, ?_⟩
  · constructor
    · rintro ⟨e, he⟩
      cases eos_token_id with
      | none => simp [update_inference_inputs] at he
      | some ev =>
        cases pad_token_id with
        | none => exact ⟨rfl, rfl⟩
        | some p => simp [update_inference_inputs] at he
    · rintro ⟨h1, h2⟩
      cases eos_token_id with
      | none => simp at h1
      | some ev =>
        subst h2
        exact ⟨_, rfl⟩
  · intro ev p hev hp hu
    subst hev; subst hp; subst hu
    refine ⟨_, _, _, _, rfl, ?_⟩
    intro t ht
    simp only [List.mem_map] at ht
    obtain ⟨t0, -, ht0⟩ := ht
    omega
  · intro ev p hev hp hu
    subst hev; subst hp; subst hu
    have hmap : (nextTokensRaw candidates best_candidate accept_length logits
        use_base_logits).map (fun t => t * 1 + p * (1 - 1)) =
        nextTokensRaw candidates best_candidate accept_length logits use_base_logits := by
      have harg : ∀ t ∈ nextTokensRaw candidates best_candidate accept_length logits
          use_base_logits, t * 1 + p * (1 - 1) = t := fun t _ => by omega
      rw [List.map_congr_left harg]
      simp
    have h1 : update_inference_inputs input_ids candidates best_candidate accept_length
        logits new_token (some ev) (some p) 1 use_base_logits =
        Except.ok (input_ids ++
            (nextTokensRaw candidates best_candidate accept_length logits
              use_base_logits).map (fun t => t * 1 + p * (1 - 1)),
          [((logits.getD best_candidate []).drop accept_length).take 1],
          new_token + (if use_base_logits then accept_length + 2 else accept_length + 1),
          (nextTokensRaw candidates best_candidate accept_length logits
            use_base_logits).map (fun t => t * 1 + p * (1 - 1))) := rfl
    rw [hmap] at h1
    exact ⟨_, _, _, h1, rfl⟩

/-- Witness for C8 at concrete inputs: eos set without pad errors; with pad = 7 a
finished sequence gets only pad tokens appended; an unfinished one gets the selected
tokens unchanged. -/
theorem c8_pad_override_witness :
    (∃ e, update_inference_inputs [9] [[4, 5]] 0 0 [[[1, 0], [0, 1]]] 0 (some 2) none 0
        false = Except.error e) ∧
    (∃ ids lg c nt, update_inference_inputs [9] [[4, 5]] 0 0 [[[1, 0], [0, 1]]] 0
        (some 2) (some 7) 0 false = Except.ok (ids, lg, c, nt) ∧ ∀ t ∈ nt, t = 7) ∧
    (∃ ids lg c, update_inference_inputs [9] [[4, 5]] 0 0 [[[1, 0], [0, 1]]] 0
        (some 2) (some 7) 1 false = Except.ok (ids, lg, c,
          nextTokensRaw [[4, 5]] 0 0 [[[1, 0], [0, 1]]] false) ∧
      ids = [9] ++ nextTokensRaw [[4, 5]] 0 0 [[[1, 0], [0, 1]]] false) :=
  ⟨(c8_pad_override [9] [[4, 5]] 0 0 [[[1, 0], [0, 1]]] 0 (some 2) none 0 false).1.mpr
      ⟨rfl, rfl⟩,
    (c8_pad_override [9] [[4, 5]] 0 0 [[[1, 0], [0, 1]]] 0 (some 2) (some 7) 0
        false).2.1 2 7 rfl rfl rfl,
    (c8_pad_override [9] [[4, 5]] 0 0 [[[1, 0], [0, 1]]] 0 (some 2) (some 7) 1
        false).2.2 2 7 rfl rfl rfl⟩

/-!
## PosteriorEvaluator: the `temperature > 0` branch of `evaluate_posterior`

Source (`medusa_utils.py`, lines 581-608).  The floating-point tensors are embedded over
the reals; with `P = candidates.length` paths and `D = width(candidates) - 1` verified
positions per path, the elementwise pipeline is embedded index-wise.
-/

open Classical

/-- `torch.softmax(row / T, dim=-1)`. -/
noncomputable def softmaxRow (T : ℝ) (row : List ℝ) : List ℝ :=
  row.map (fun x => Real.exp (x / T) / (row.map (fun y => Real.exp (y / T))).sum)

/-- `posterior_prob[p][i] = softmax(logits[p][i] / T)`; positions `i < D` are the slice
`logits[:, :-1]`. -/
noncomputable def posteriorProbAt (logits : List (List (List ℝ))) (T : ℝ)
    (p i : ℕ) : List ℝ :=
  softmaxRow T ((logits.getD p []).getD i [])

/-- `candidates_prob[p][i]`: the probability mass placed on the proposed token
`candidates[p][i+1]` (`torch.gather`). -/
noncomputable def candProbAt (logits : List (List (List ℝ)))
    (candidates : List (List ℕ)) (T : ℝ) (p i : ℕ) : ℝ :=
  (posteriorProbAt logits T p i).getD ((candidates.getD p []).getD (i + 1) 0) 0

/-- `posterior_entropy[p][i] = -sum(prob * log(prob + 1e-5))`. -/
noncomputable def entropyAt (logits : List (List (List ℝ))) (T : ℝ) (p i : ℕ) : ℝ :=
  -((posteriorProbAt logits T p i).map
      (fun q => q * Real.log (q + 1 / 100000))).sum

/-- `threshold = torch.minimum(posterior_threshold, exp(-entropy) * posterior_alpha)`. -/
noncomputable def thresholdAt (logits : List (List (List ℝ))) (T pt pa : ℝ)
    (p i : ℕ) : ℝ :=
  min pt (Real.exp (-entropyAt logits T p i) * pa)

/-- Row `p` of `posterior_mask = candidates_prob > threshold` as 0/1 integers. -/
noncomputable def sampleMaskRow (logits : List (List (List ℝ)))
    (candidates : List (List ℕ)) (T pt pa : ℝ) (p : ℕ) : List ℕ :=
  (List.range ((candidates.getD 0 []).length - 1)).map (fun i =>
    if thresholdAt logits T pt pa p i < candProbAt logits candidates T p i
    then 1 else 0)

/-- `candidates_accept_length = cumprod(posterior_mask, dim=1).sum(dim=1)`. -/
noncomputable def sampleAcceptLens (logits : List (List (List ℝ)))
    (candidates : List (List ℕ)) (T pt pa : ℝ) : List ℕ :=
  (List.range candidates.length).map
    (fun p => cumprodSum (sampleMaskRow logits candidates T pt pa p))

/-- `best_candidates = torch.where(candidates_accept_length == accept_length)[0]`. -/
noncomputable def sampleBestCands (logits : List (List (List ℝ)))
    (candidates : List (List ℕ)) (T pt pa : ℝ) : List ℕ :=
  (List.range (sampleAcceptLens logits candidates T pt pa).length).filter
    (fun p => (sampleAcceptLens logits candidates T pt pa).getD p 0 =
      listMax (sampleAcceptLens logits candidates T pt pa))

/-- `likelihood = torch.sum(torch.log(candidates_prob[best_candidates, :accept_length]),
dim=-1)`. -/
noncomputable def sampleLikelihood (logits : List (List (List ℝ)))
    (candidates : List (List ℕ)) (T pt pa : ℝ) : List ℝ :=
  (sampleBestCands logits candidates T pt pa).map (fun p =>
    ((List.range (listMax (sampleAcceptLens logits candidates T pt pa))).map
      (fun i => Real.log (candProbAt logits candidates T p i))).sum)

/-- The `temperature != 0` branch of `evaluate_posterior`: returns
`(best_candidate, accept_length)`; when no candidate is accepted, path 0 is chosen,
otherwise the accepted-length ties are broken by maximal summed log-likelihood. -/
noncomputable def evaluate_posterior_sample (logits : List (List (List ℝ)))
    (candidates : List (List ℕ)) (T pt pa : ℝ) : ℕ × ℕ :=
  if listMax (sampleAcceptLens logits candidates T pt pa) = 0 then (0, 0)
  else
    ((sampleBestCands logits candidates T pt pa).getD
        (argmaxIdx (sampleLikelihood logits candidates T pt pa)) 0,
      listMax (sampleAcceptLens logits candidates T pt pa))

/-- The per-path accepted length as the specification states it: the longest prefix of
positions whose proposed token's softmax probability strictly exceeds
`min(posteriorThreshold, exp(-entropy) * posteriorAlpha)`. -/
noncomputable def specSampleLen (logits : List (List (List ℝ)))
    (candidates : List (List ℕ)) (T pt pa : ℝ) (p : ℕ) : ℕ :=
  ((List.range ((candidates.getD 0 []).length - 1)).takeWhile (fun i =>
    decide (thresholdAt logits T pt pa p i < candProbAt logits candidates T p i))).length

/-- Summed log candidate probability of path `q` over the first `len` positions. -/
noncomputable def specLogLik (logits : List (List (List ℝ)))
    (candidates : List (List ℕ)) (T : ℝ) (len q : ℕ) : ℝ :=
  ((List.range len).map (fun i => Real.log (candProbAt logits candidates T q i))).sum

theorem sample_len_eq (logits : List (List (List ℝ))) (candidates : List (List ℕ))
    (T pt pa : ℝ) (p : ℕ) :
    cumprodSum (sampleMaskRow logits candidates T pt pa p) =
      specSampleLen logits candidates T pt pa p := by
  unfold sampleMaskRow specSampleLen
  exact cumprodSum_map_ite _ _

theorem sample_lens_eq (logits : List (List (List ℝ))) (candidates : List (List ℕ))
    (T pt pa : ℝ) :
    sampleAcceptLens logits candidates T pt pa =
      (List.range candidates.length).map (specSampleLen logits candidates T pt pa) := by
  unfold sampleAcceptLens
  exact List.map_congr_left (fun p _ => sample_len_eq logits candidates T pt pa p)

theorem evaluate_posterior_sample_snd (logits : List (List (List ℝ)))
    (candidates : List (List ℕ)) (T pt pa : ℝ) :
    (evaluate_posterior_sample logits candidates T pt pa).2 =
      listMax (sampleAcceptLens logits candidates T pt pa) := by
  unfold evaluate_posterior_sample
  by_cases h : listMax (sampleAcceptLens logits candidates T pt pa) = 0
  · rw [if_pos h]; exact h.symm
  · rw [if_neg h]

theorem getD_map_of_lt {β γ : Type} (f : β → γ) (l : List β) {i : ℕ} (hi : i < l.length)
    (dy : β) (dz : γ) : (l.map f).getD i dz = f (l.getD i dy) := by
  rw [List.getD_eq_getElem _ _ (by simpa using hi), List.getD_eq_getElem _ _ hi]
  simp

/-- C3: with temperature `T > 0`, `evaluate_posterior` accepts position `i` of path `p`
iff the softmax probability of the proposed token strictly exceeds
`min(posteriorThreshold, exp(-entropy) * posteriorAlpha)` (entropy computed with the
`1e-5` epsilon inside the logarithm); `accept_length` is the maximum over paths of the
longest all-accepted prefix; and the returned `best_candidate` attains that maximum and
has maximal summed log candidate probability over the accepted prefix among the paths
tied at the maximum. -/
theorem c3_sample_characterization (logits : List (List (List ℝ)))
    (candidates : List (List ℕ)) (T pt pa : ℝ) (hT : 0 < T)
    (hP : 0 < candidates.length) :
    (∀ p i, i < (candidates.getD 0 []).length - 1 →
      ((sampleMaskRow logits candidates T pt pa p).getD i 0 = 1 ↔
        candProbAt logits candidates T p i >
          min pt (Real.exp (-entropyAt logits T p i) * pa))) ∧
    (evaluate_posterior_sample logits candidates T pt pa).2 =
      listMax ((List.range candidates.length).map
        (specSampleLen logits candidates T pt pa)) ∧
    specSampleLen logits candidates T pt pa
        (evaluate_posterior_sample logits candidates T pt pa).1 =
      (evaluate_posterior_sample logits candidates T pt pa).2 ∧
    (∀ q, q < candidates.length →
      specSampleLen logits candidates T pt pa q =
        (evaluate_posterior_sample logits candidates T pt pa).2 →
      specLogLik logits candidates T
          (evaluate_posterior_sample logits candidates T pt pa).2 q ≤
        specLogLik logits candidates T
          (evaluate_posterior_sample logits candidates T pt pa).2
          (evaluate_posterior_sample logits candidates T pt pa).1) := by
  have hlens := sample_lens_eq logits candidates T pt pa
  have hLlen : (sampleAcceptLens logits candidates T pt pa).length =
      candidates.length := by rw [hlens]; simp
  have hgetD : ∀ p, p < candidates.length →
      (sampleAcceptLens logits candidates T pt pa).getD p 0 =
        specSampleLen logits candidates T pt pa p := by
    intro p hp
    rw [hlens]
    exact getD_map_range _ hp 0
  have hsnd := evaluate_posterior_sample_snd logits candidates T pt pa
  refine ⟨?_, ?_, ?_, ?_⟩
  · intro p i hi
    unfold sampleMaskRow
    rw [getD_map_range _ hi 0]
    by_cases hc : thresholdAt logits T pt pa p i < candProbAt logits candidates T p i
    · rw [if_pos hc]
      exact ⟨fun _ => hc, fun _ => rfl⟩
    · rw [if_neg hc]
      exact ⟨fun h => absurd h (by decide), fun h => absurd h hc⟩
  · rw [hsnd, hlens]
  · by_cases h0 : listMax (sampleAcceptLens logits candidates T pt pa) = 0
    · have hr : evaluate_posterior_sample logits candidates T pt pa = (0, 0) := by
        unfold evaluate_posterior_sample; rw [if_pos h0]
      rw [hr]
      show specSampleLen logits candidates T pt pa 0 = 0
      have hmem : specSampleLen logits candidates T pt pa 0 ∈
          (List.range candidates.length).map (specSampleLen logits candidates T pt pa) :=
        List.mem_map_of_mem _ (List.mem_range.mpr hP)
      have := le_listMax_of_mem hmem
      rw [← hlens] at this
      omega
    · have hr : evaluate_posterior_sample logits candidates T pt pa =
          ((sampleBestCands logits candidates T pt pa).getD
            (argmaxIdx (sampleLikelihood logits candidates T pt pa)) 0,
           listMax (sampleAcceptLens logits candidates T pt pa)) := by
        unfold evaluate_posterior_sample; rw [if_neg h0]
      have hbcne : sampleBestCands logits candidates T pt pa ≠ [] := by
        obtain ⟨j, hj, hjeq⟩ := List.mem_iff_getElem.mp (listMax_mem h0)
        have hjmem : j ∈ sampleBestCands logits candidates T pt pa := by
          unfold sampleBestCands
          refine List.mem_filter.mpr ⟨List.mem_range.mpr hj, ?_⟩
          simp only [decide_eq_true_eq]
          rw [List.getD_eq_getElem _ _ hj]
          exact hjeq
        exact List.ne_nil_of_mem hjmem
      have hliklen : (sampleLikelihood logits candidates T pt pa).length =
          (sampleBestCands logits candidates T pt pa).length := by
        unfold sampleLikelihood; simp
      have hlikne : sampleLikelihood logits candidates T pt pa ≠ [] := by
        intro h
        rw [h] at hliklen
        exact hbcne (List.length_eq_zero.mp hliklen.symm)
      have hargmax : argmaxIdx (sampleLikelihood logits candidates T pt pa) <
          (sampleBestCands logits candidates T pt pa).length := by
        rw [← hliklen]
        exact argmaxIdx_lt_length _ hlikne
      have hbest_mem : (sampleBestCands logits candidates T pt pa).getD
          (argmaxIdx (sampleLikelihood logits candidates T pt pa)) 0 ∈
          sampleBestCands logits candidates T pt pa := getD_mem hargmax
      have hbest_prop := List.mem_filter.mp hbest_mem
      have hbestP : (sampleBestCands logits candidates T pt pa).getD
          (argmaxIdx (sampleLikelihood logits candidates T pt pa)) 0 <
          candidates.length := by
        have := List.mem_range.mp hbest_prop.1
        omega
      have hbest_max : (sampleAcceptLens logits candidates T pt pa).getD
          ((sampleBestCands logits candidates T pt pa).getD
            (argmaxIdx (sampleLikelihood logits candidates T pt pa)) 0) 0 =
          listMax (sampleAcceptLens logits candidates T pt pa) := by
        have := hbest_prop.2
        simpa using this
      rw [hr]
      show specSampleLen logits candidates T pt pa _ =
        listMax (sampleAcceptLens logits candidates T pt pa)
      rw [← hgetD _ hbestP]
      exact hbest_max
  · intro q hq hspec
    by_cases h0 : listMax (sampleAcceptLens logits candidates T pt pa) = 0
    · have hr : evaluate_posterior_sample logits candidates T pt pa = (0, 0) := by
        unfold evaluate_posterior_sample; rw [if_pos h0]
      rw [hr]
      show specLogLik logits candidates T 0 q ≤ specLogLik logits candidates T 0 0
      unfold specLogLik
      simp
    · have hr : evaluate_posterior_sample logits candidates T pt pa =
          ((sampleBestCands logits candidates T pt pa).getD
            (argmaxIdx (sampleLikelihood logits candidates T pt pa)) 0,
           listMax (sampleAcceptLens logits candidates T pt pa)) := by
        unfold evaluate_posterior_sample; rw [if_neg h0]
      have hliklen : (sampleLikelihood logits candidates T pt pa).length =
          (sampleBestCands logits candidates T pt pa).length := by
        unfold sampleLikelihood; simp
      have hq_lens : (sampleAcceptLens logits candidates T pt pa).getD q 0 =
          listMax (sampleAcceptLens logits candidates T pt pa) := by
        rw [hgetD q hq, hspec, hr]
      have hq_mem : q ∈ sampleBestCands logits candidates T pt pa := by
        unfold sampleBestCands
        refine List.mem_filter.mpr ⟨List.mem_range.mpr (by omega), ?_⟩
        simp only [decide_eq_true_eq]
        exact hq_lens
      obtain ⟨j, hj, hjq⟩ := List.mem_iff_getElem.mp hq_mem
      have hjlik : j < (sampleLikelihood logits candidates T pt pa).length := by
        rw [hliklen]; exact hj
      have hlikj : (sampleLikelihood logits candidates T pt pa).getD j 0 =
          specLogLik logits candidates T
            (listMax (sampleAcceptLens logits candidates T pt pa)) q := by
        have h := getD_map_of_lt
          (fun p => ((List.range
            (listMax (sampleAcceptLens logits candidates T pt pa))).map
              (fun i => Real.log (candProbAt logits candidates T p i))).sum)
          (sampleBestCands logits candidates T pt pa) hj 0 0
        rw [List.getD_eq_getElem _ _ hj, hjq] at h
        exact h
      have hargmax : argmaxIdx (sampleLikelihood logits candidates T pt pa) <
          (sampleBestCands logits candidates T pt pa).length := by
        rw [← hliklen]
        refine argmaxIdx_lt_length _ ?_
        intro h
        rw [h] at hliklen
        exact (List.ne_nil_of_mem hq_mem) (List.length_eq_zero.mp hliklen.symm)
      have hlikbest : (sampleLikelihood logits candidates T pt pa).getD
          (argmaxIdx (sampleLikelihood logits candidates T pt pa)) 0 =
          specLogLik logits candidates T
            (listMax (sampleAcceptLens logits candidates T pt pa))
            ((sampleBestCands logits candidates T pt pa).getD
              (argmaxIdx (sampleLikelihood logits candidates T pt pa)) 0) :=
        getD_map_of_lt
          (fun p => ((List.range
            (listMax (sampleAcceptLens logits candidates T pt pa))).map
              (fun i => Real.log (candProbAt logits candidates T p i))).sum)
          (sampleBestCands logits candidates T pt pa) hargmax 0 0
      have hle := argmaxIdx_le (sampleLikelihood logits candidates T pt pa) 0 j hjlik
      rw [hlikj, hlikbest] at hle
      rw [hr]
      exact hle

/-- C10 amended: increasing `posteriorAlpha` never decreases any computed threshold, and
therefore never INCREASES the acceptance length (the acceptance test is
`candidates_prob > threshold`, so larger thresholds accept less). -/
theorem c10_amended (logits : List (List (List ℝ))) (candidates : List (List ℕ))
    (T pt pa1 pa2 : ℝ) (hpa : pa1 ≤ pa2) :
    (∀ p i, thresholdAt logits T pt pa1 p i ≤ thresholdAt logits T pt pa2 p i) ∧
    (evaluate_posterior_sample logits candidates T pt pa2).2 ≤
      (evaluate_posterior_sample logits candidates T pt pa1).2 := by
  have hthr : ∀ p i, thresholdAt logits T pt pa1 p i ≤ thresholdAt logits T pt pa2 p i := by
    intro p i
    unfold thresholdAt
    exact min_le_min le_rfl (mul_le_mul_of_nonneg_left hpa (Real.exp_nonneg _))
  refine ⟨hthr, ?_⟩
  rw [evaluate_posterior_sample_snd, evaluate_posterior_sample_snd]
  have hlens : ∀ p, cumprodSum (sampleMaskRow logits candidates T pt pa2 p) ≤
      cumprodSum (sampleMaskRow logits candidates T pt pa1 p) := by
    intro p
    unfold sampleMaskRow
    refine cumprodSum_mono _ _ _ ?_
    intro i _
    by_cases h2 : thresholdAt logits T pt pa2 p i < candProbAt logits candidates T p i
    · have h1 : thresholdAt logits T pt pa1 p i < candProbAt logits candidates T p i :=
        lt_of_le_of_lt (hthr p i) h2
      simp [h1, h2]
    · simp [h2]
  apply listMax_le
  intro x hx
  have hx' : x ∈ (List.range candidates.length).map
      (fun p => cumprodSum (sampleMaskRow logits candidates T pt pa2 p)) := hx
  obtain ⟨p, hpmem, hxp⟩ := List.mem_map.mp hx'
  have hmem1 : cumprodSum (sampleMaskRow logits candidates T pt pa1 p) ∈
      sampleAcceptLens logits candidates T pt pa1 :=
    List.mem_map_of_mem _ hpmem
  calc x = cumprodSum (sampleMaskRow logits candidates T pt pa2 p) := hxp.symm
  _ ≤ cumprodSum (sampleMaskRow logits candidates T pt pa1 p) := hlens p
  _ ≤ listMax (sampleAcceptLens logits candidates T pt pa1) := le_listMax_of_mem hmem1

theorem c10_softmax_eval : softmaxRow 1 [0, 0] = [1 / 2, 1 / 2] := by
  unfold softmaxRow
  simp only [List.map_cons, List.map_nil, List.sum_cons, List.sum_nil]
  norm_num [Real.exp_zero]

theorem c10_prob_eval : posteriorProbAt [[[0, 0], [0, 0]]] 1 0 0 = [1 / 2, 1 / 2] := by
  unfold posteriorProbAt
  have h : (([[[0, 0], [0, 0]]] : List (List (List ℝ))).getD 0 []).getD 0 [] =
      ([0, 0] : List ℝ) := rfl
  rw [h]
  exact c10_softmax_eval

theorem c10_candprob_eval :
    candProbAt [[[0, 0], [0, 0]]] [[0, 1]] 1 0 0 = 1 / 2 := by
  unfold candProbAt
  rw [c10_prob_eval]
  rfl

theorem c10_entropy_eval :
    entropyAt [[[0, 0], [0, 0]]] 1 0 0 = -Real.log (50001 / 100000) := by
  unfold entropyAt
  rw [c10_prob_eval]
  have h12 : (1 / 2 : ℝ) + 1 / 100000 = 50001 / 100000 := by norm_num
  simp only [List.map_cons, List.map_nil, List.sum_cons, List.sum_nil, h12]
  ring

theorem c10_exp_eval :
    Real.exp (-entropyAt [[[0, 0], [0, 0]]] 1 0 0) = 50001 / 100000 := by
  rw [c10_entropy_eval, neg_neg, Real.exp_log (by norm_num : (0 : ℝ) < 50001 / 100000)]

theorem c10_thr_low :
    thresholdAt [[[0, 0], [0, 0]]] 1 1 (1 / 5) 0 0 = 50001 / 500000 := by
  unfold thresholdAt
  rw [c10_exp_eval, show (50001 / 100000 : ℝ) * (1 / 5) = 50001 / 500000 by norm_num]
  exact min_eq_right (by norm_num)

theorem c10_thr_high :
    thresholdAt [[[0, 0], [0, 0]]] 1 1 (6 / 5) 0 0 = 300006 / 500000 := by
  unfold thresholdAt
  rw [c10_exp_eval, show (50001 / 100000 : ℝ) * (6 / 5) = 300006 / 500000 by norm_num]
  exact min_eq_right (by norm_num)

theorem c10_mask_low :
    sampleMaskRow [[[0, 0], [0, 0]]] [[0, 1]] 1 1 (1 / 5) 0 = [1] := by
  unfold sampleMaskRow
  have hD : (([[0, 1]] : List (List ℕ)).getD 0 []).length - 1 = 1 := rfl
  rw [hD, show List.range 1 = [0] from rfl]
  simp only [List.map_cons, List.map_nil]
  rw [if_pos (by rw [c10_thr_low, c10_candprob_eval]; norm_num)]

theorem c10_mask_high :
    sampleMaskRow [[[0, 0], [0, 0]]] [[0, 1]] 1 1 (6 / 5) 0 = [0] := by
  unfold sampleMaskRow
  have hD : (([[0, 1]] : List (List ℕ)).getD 0 []).length - 1 = 1 := rfl
  rw [hD, show List.range 1 = [0] from rfl]
  simp only [List.map_cons, List.map_nil]
  rw [if_neg (by rw [c10_thr_high, c10_candprob_eval]; norm_num)]

theorem c10_lens_low :
    sampleAcceptLens [[[0, 0], [0, 0]]] [[0, 1]] 1 1 (1 / 5) = [1] := by
  unfold sampleAcceptLens
  have hP : ([[0, 1]] : List (List ℕ)).length = 1 := rfl
  rw [hP, show List.range 1 = [0] from rfl]
  simp only [List.map_cons, List.map_nil]
  rw [c10_mask_low]
  decide

theorem c10_lens_high :
    sampleAcceptLens [[[0, 0], [0, 0]]] [[0, 1]] 1 1 (6 / 5) = [0] := by
  unfold sampleAcceptLens
  have hP : ([[0, 1]] : List (List ℕ)).length = 1 := rfl
  rw [hP, show List.range 1 = [0] from rfl]
  simp only [List.map_cons, List.map_nil]
  rw [c10_mask_high]
  decide

/-- Counterexample for C10: with uniform verified logits (softmax = [1/2, 1/2]),
`T = 1`, `posteriorThreshold = 1`, raising `posteriorAlpha` from 1/5 to 6/5 raises the
per-position threshold (0.100002 to 0.600012), which makes the single position flip from
accepted (1/2 > 0.100002) to rejected (1/2 < 0.600012): the accept length DROPS from 1
to 0, refuting the claim that it never decreases. -/
theorem c10_counterexample :
    thresholdAt [[[0, 0], [0, 0]]] 1 1 (1 / 5) 0 0 ≤
      thresholdAt [[[0, 0], [0, 0]]] 1 1 (6 / 5) 0 0 ∧
    (evaluate_posterior_sample [[[0, 0], [0, 0]]] [[0, 1]] 1 1 (6 / 5)).2 <
      (evaluate_posterior_sample [[[0, 0], [0, 0]]] [[0, 1]] 1 1 (1 / 5)).2 := by
  constructor
  · rw [c10_thr_low, c10_thr_high]
    norm_num
  · rw [evaluate_posterior_sample_snd, evaluate_posterior_sample_snd, c10_lens_low,
      c10_lens_high]
    decide

/-- Witness for the amended C10 at the counterexample input with `pa1 = 1/5 <= pa2 = 6/5`. -/
theorem c10_amended_witness :
    (1 / 5 : ℝ) ≤ 6 / 5 ∧
    ((∀ p i, thresholdAt [[[0, 0], [0, 0]]] 1 1 (1 / 5) p i ≤
        thresholdAt [[[0, 0], [0, 0]]] 1 1 (6 / 5) p i) ∧
      (evaluate_posterior_sample [[[0, 0], [0, 0]]] [[0, 1]] 1 1 (6 / 5)).2 ≤
        (evaluate_posterior_sample [[[0, 0], [0, 0]]] [[0, 1]] 1 1 (1 / 5)).2) :=
  ⟨by norm_num,
    c10_amended [[[0, 0], [0, 0]]] [[0, 1]] 1 1 (1 / 5) (6 / 5) (by norm_num)⟩

/-- Witness for C3 at a concrete input (1 path, uniform logits, `T = 1`, `pt = 1`,
`pa = 1/5`). -/
theorem c3_sample_characterization_witness :
    (0 : ℝ) < 1 ∧ 0 < ([[0, 1]] : List (List ℕ)).length ∧
    ((∀ p i, i < (([[0, 1]] : List (List ℕ)).getD 0 []).length - 1 →
      ((sampleMaskRow [[[0, 0], [0, 0]]] [[0, 1]] 1 1 (1 / 5) p).getD i 0 = 1 ↔
        candProbAt [[[0, 0], [0, 0]]] [[0, 1]] 1 p i >
          min 1 (Real.exp (-entropyAt [[[0, 0], [0, 0]]] 1 p i) * (1 / 5)))) ∧
    (evaluate_posterior_sample [[[0, 0], [0, 0]]] [[0, 1]] 1 1 (1 / 5)).2 =
      listMax ((List.range ([[0, 1]] : List (List ℕ)).length).map
        (specSampleLen [[[0, 0], [0, 0]]] [[0, 1]] 1 1 (1 / 5))) ∧
    specSampleLen [[[0, 0], [0, 0]]] [[0, 1]] 1 1 (1 / 5)
        (evaluate_posterior_sample [[[0, 0], [0, 0]]] [[0, 1]] 1 1 (1 / 5)).1 =
      (evaluate_posterior_sample [[[0, 0], [0, 0]]] [[0, 1]] 1 1 (1 / 5)).2 ∧
    (∀ q, q < ([[0, 1]] : List (List ℕ)).length →
      specSampleLen [[[0, 0], [0, 0]]] [[0, 1]] 1 1 (1 / 5) q =
        (evaluate_posterior_sample [[[0, 0], [0, 0]]] [[0, 1]] 1 1 (1 / 5)).2 →
      specLogLik [[[0, 0], [0, 0]]] [[0, 1]] 1
          (evaluate_posterior_sample [[[0, 0], [0, 0]]] [[0, 1]] 1 1 (1 / 5)).2 q ≤
        specLogLik [[[0, 0], [0, 0]]] [[0, 1]] 1
          (evaluate_posterior_sample [[[0, 0], [0, 0]]] [[0, 1]] 1 1 (1 / 5)).2
          (evaluate_posterior_sample [[[0, 0], [0, 0]]] [[0, 1]] 1 1 (1 / 5)).1)) :=
  ⟨one_pos, by decide,
    c3_sample_characterization [[[0, 0], [0, 0]]] [[0, 1]] 1 1 (1 / 5) one_pos (by decide)⟩
